import Mathlib

/-!
Verification of the `linode-legacy-to-setuptools` URL translator.

Shallow embedding of `legacy_to_techdocs` (package) and `legacy_to_techdocs.py`
(single-file script).  Text is modelled as `List Char`; Python's `\w`, `\s`,
`str.lower` are modelled over ASCII.  Python's regular-expression engine is
embedded as an explicit backtracking matcher specialised to the two patterns
used by the program, enumerating alternatives in the engine's priority order.
-/

set_option maxHeartbeats 1000000

/-- ASCII model of Python's regex class `\s`. -/
def wsChar (c : Char) : Bool :=
  c = ' ' || c = '\t' || c = '\n' || c = '\r' || c = '\x0b' || c = '\x0c'

/-- ASCII model of Python's regex class `\w`. -/
def wordChar (c : Char) : Bool :=
  c.isAlphanum || c = '_'

/-- Character class `[\w-]` (the `tag` and `anchor` groups of `LEGACY_URL_REGEX`). -/
def tagChar (c : Char) : Bool :=
  wordChar c || c = '-'

/-- Character class `[a-zA-Z0-9-]` (the `summary` group of `LEGACY_URL_REGEX`). -/
def sumChar (c : Char) : Bool :=
  c.isAlphanum || c = '-'

/-- An unescaped `.` in a Python regex: any character except a newline. -/
def dotAny (c : Char) : Bool :=
  c ≠ '\n'

/-- Match a fixed-length sequence of character predicates at the head of the
input, returning the remaining suffix on success. -/
def matchLit : List (Char → Bool) → List Char → Option (List Char)
  | [], l => some l
  | _ :: _, [] => none
  | p :: ps, c :: l => if p c then matchLit ps l else none

/-- The pattern `https://www.` of `LEGACY_URL_REGEX`; the final `.` is an
unescaped wildcard. -/
def httpsPat : List (Char → Bool) :=
  [(· = 'h'), (· = 't'), (· = 't'), (· = 'p'), (· = 's'), (· = ':'),
   (· = '/'), (· = '/'), (· = 'w'), (· = 'w'), (· = 'w'), dotAny]

/-- The pattern `linode.com/docs/api` of `LEGACY_URL_REGEX`; the `.` is an
unescaped wildcard. -/
def mainLitPat : List (Char → Bool) :=
  [(· = 'l'), (· = 'i'), (· = 'n'), (· = 'o'), (· = 'd'), (· = 'e'), dotAny,
   (· = 'c'), (· = 'o'), (· = 'm'), (· = '/'), (· = 'd'), (· = 'o'), (· = 'c'),
   (· = 's'), (· = '/'), (· = 'a'), (· = 'p'), (· = 'i')]

/-- Alternatives for the optional greedy group `(?:https://www.)?`: with the
group first, then without. -/
def optPre (l : List Char) : List (List Char) :=
  match matchLit httpsPat l with
  | some r => [r, l]
  | none => [l]

/-- Alternatives for an optional greedy single character (`/?`, `#?`): consume
it first, then skip. -/
def optChar (ch : Char) : List Char → List (List Char)
  | [] => [[]]
  | c :: l => if c = ch then [l, c :: l] else [c :: l]

/-- Alternatives, in the engine's greedy priority order (longest capture
first), for a one-or-more repetition of a character class: each candidate is
the captured run paired with the remaining suffix. -/
def plusCands (p : Char → Bool) : List Char → List (List Char × List Char)
  | [] => []
  | c :: l =>
    if p c then
      (plusCands p l).map (fun pr => (c :: pr.1, pr.2)) ++ [([c], l)]
    else []

/-- Alternatives for an optional greedy capture group `([class]+)?`. -/
def optGroup (p : Char → Bool) (l : List Char) : List (Option (List Char) × List Char) :=
  (plusCands p l).map (fun pr => (some pr.1, pr.2)) ++ [(none, l)]

/-- Alternatives for the trailing group `(?:__(?P<anchor>[\w\-]+))?`. -/
def anchorCands (l : List Char) : List (Option (List Char) × List Char) :=
  (match l with
   | c1 :: c2 :: r =>
     if c1 = '_' then
       if c2 = '_' then (plusCands tagChar r).map (fun pr => (some pr.1, pr.2))
       else []
     else []
   | _ => []) ++ [(none, l)]

/-- The capture state of a `LEGACY_URL_REGEX` match attempt: the suffix left
after the match, and the three named groups. -/
structure MState where
  rest : List Char
  tag : Option (List Char)
  summary : Option (List Char)
  anchor : Option (List Char)
deriving DecidableEq, Repr

/-- All ways `LEGACY_URL_REGEX` (minus its final lookahead) can match at the
head of the input, in the engine's backtracking priority order. -/
def matchCands (l : List Char) : List MState :=
  (optPre l).flatMap fun l1 =>
    match matchLit mainLitPat l1 with
    | none => []
    | some l2 =>
      (optChar '/' l2).flatMap fun l3 =>
        (optGroup tagChar l3).flatMap fun tl =>
          (optChar '/' tl.2).flatMap fun l5 =>
            (optChar '#' l5).flatMap fun l6 =>
              (optGroup sumChar l6).flatMap fun sl =>
                (anchorCands sl.2).map fun al =>
                  ⟨al.2, tl.1, sl.1, al.1⟩

/-- The final lookahead `(?=["\s)]|$)` of `LEGACY_URL_REGEX` (under
`re.MULTILINE`, the `$` alternative before a newline is subsumed by `\s`). -/
def lookOk : List Char → Bool
  | [] => true
  | c :: _ => c = '"' || c = ')' || wsChar c

/-- A `LEGACY_URL_REGEX` match attempt anchored at the head of the input:
the first candidate, in priority order, whose suffix passes the lookahead. -/
def pymatch (l : List Char) : Option MState :=
  ((matchCands l).filter (fun st => lookOk st.rest)).head?

/-- Characters kept by the package's `URL_PATH_REGEX` substitution, i.e. the
class `[a-zA-z0-9- ]`: note the `A-z` range also covers the six punctuation
characters between `Z` and `a`. -/
def keepPkg (c : Char) : Bool :=
  ('a' ≤ c && c ≤ 'z') || ('A' ≤ c && c ≤ 'z') || ('0' ≤ c && c ≤ '9')
    || c = '-' || c = ' '

/-- Characters kept by the single-file script's `URL_PATH_REGEX` substitution,
i.e. the class `[a-z ]`. -/
def keepScript (c : Char) : Bool :=
  ('a' ≤ c && c ≤ 'z') || c = ' '

/-- `URLTranslator._flatten_path_for_url` (package): lowercase, delete the
characters removed by `URL_PATH_REGEX`, then replace spaces with hyphens. -/
def flatten_path_for_url (v : List Char) : List Char :=
  (((v.map Char.toLower).filter keepPkg).map (fun c => if c = ' ' then '-' else c))

/-- `_flatten_path_for_url` (single-file script): lowercase, delete the
characters removed by its `URL_PATH_REGEX`, then replace spaces with hyphens. -/
def flatten_path_for_url_script (v : List Char) : List Char :=
  (((v.map Char.toLower).filter keepScript).map (fun c => if c = ' ' then '-' else c))

/-- Scanner for `_strip_url_ids`; the fuel argument (one unit per scan step,
each of which consumes at least one character) makes the recursion structural. -/
def stripGo : Nat → List Char → List Char
  | _, [] => []
  | 0, l => l
  | fuel + 1, c :: rest =>
    if c = '\x7b' then
      let run := rest.takeWhile (fun d => d ≠ '\x7d')
      match rest.drop run.length with
      | '\x7d' :: tail =>
        if run.length ≥ 1 then '\x7b' :: '\x7d' :: stripGo fuel tail
        else c :: stripGo fuel rest
      | _ => c :: stripGo fuel rest
    else c :: stripGo fuel rest

/-- `_strip_url_ids`: the substitution of `{[^}]+}` by `{}`, scanning left to
right as `re.sub` does. -/
def strip_url_ids (l : List Char) : List Char :=
  stripGo l.length l

/-! ## Data model of the external API-description library

The spec treats the parsing library as producing "a tree of
path/operation/tag/summary/external-doc-url records"; these structures model
that tree.  `ext_docs` models an optional `externalDocs` record whose `url`
field is itself optional. -/

/-- The fields of an `openapi3` `Operation` that the program reads. -/
structure OperationData where
  summary : Option (List Char)
  tags : Option (List (List Char))
  ext_docs : Option (Option (List Char))
deriving DecidableEq, Repr

/-- A path item: the four HTTP-method slots the program inspects. -/
structure PathItem where
  get : Option OperationData
  post : Option OperationData
  put : Option OperationData
  delete : Option OperationData
deriving DecidableEq, Repr

/-- An `openapi3` `OpenAPI` description: the root `externalDocs` record and the
path dictionary, in insertion order. -/
structure OpenAPISpec where
  ext_docs : Option (Option (List Char))
  paths : List (List Char × PathItem)
deriving DecidableEq, Repr

/-- `CondensedOperation` (`openapi.py`). -/
structure CondensedOperation where
  summary : Option (List Char)
  tag : Option (List Char)
  path : List Char
  method : List Char
  ext_docs_url : Option (List Char)
deriving DecidableEq, Repr

/-- `CondensedOperation.from_operation`: `urlPath` and `method` stand for
`op.path[-2]` and `op.path[-1]`, the containing path key and method slot. -/
def CondensedOperation.from_operation (urlPath method : List Char)
    (op : OperationData) : CondensedOperation :=
  ⟨op.summary,
   match op.tags with
   | some (t :: _) => some t
   | _ => none,
   strip_url_ids urlPath,
   method,
   op.ext_docs.bind id⟩

/-- Association-list model of a Python `dict`: updating an existing key keeps
its position, a new key is appended. -/
def insertA {K V : Type} [DecidableEq K] (m : List (K × V)) (k : K) (v : V) :
    List (K × V) :=
  if m.any (fun p => p.1 = k) then m.map (fun p => if p.1 = k then (k, v) else p)
  else m ++ [(k, v)]

/-- Dictionary lookup on the association-list model. -/
def lookupA {K V : Type} [DecidableEq K] : List (K × V) → K → Option V
  | [], _ => none
  | (k', v) :: r, k => if k' = k then some v else lookupA r k

/-- A key of the condensed path index: (ID-stripped URL path, method). -/
abbrev PathKey := List Char × List Char

/-- The type of both condensed path indexes and operation maps. -/
abbrev OpMap := List (PathKey × CondensedOperation)

/-- `CondensedOpenAPI` (`openapi.py`). -/
structure CondensedOpenAPI where
  root_docs_url : Option (List Char)
  paths : OpMap
deriving DecidableEq, Repr

/-- `CondensedOpenAPI.valid_paths`, with the accessor for each method slot.
The source declares it as a set literal, so its iteration order is
unspecified; a fixed order is used here, which cannot change the condensed
index since the four method names give each path item four distinct keys. -/
def valid_paths : List (List Char × (PathItem → Option OperationData)) :=
  [("get".data, PathItem.get), ("post".data, PathItem.post),
   ("put".data, PathItem.put), ("delete".data, PathItem.delete)]

/-- The condensed entries contributed by one path item in
`CondensedOpenAPI.from_spec`. -/
def condenseItem (pr : List Char × PathItem) : List (PathKey × CondensedOperation) :=
  valid_paths.filterMap fun slot =>
    (slot.2 pr.2).map fun opd =>
      let cop := CondensedOperation.from_operation pr.1 slot.1 opd
      ((cop.path, cop.method), cop)

/-- `CondensedOpenAPI.from_spec`. -/
def CondensedOpenAPI.from_spec (spec : OpenAPISpec) : CondensedOpenAPI :=
  ⟨spec.ext_docs.bind id,
   spec.paths.foldl
     (fun acc pr => (condenseItem pr).foldl (fun a kv => insertA a kv.1 kv.2) acc)
     []⟩

/-- `URLTranslator._build_op_map`. -/
def build_op_map (legacy_spec : CondensedOpenAPI) : OpMap :=
  legacy_spec.paths.foldl
    (fun acc kv =>
      match kv.2.tag, kv.2.summary with
      | some t, some s =>
        insertA acc (flatten_path_for_url t, flatten_path_for_url s) kv.2
      | _, _ => acc)
    []

/-- `URLTranslator`: the state built by `__init__`. -/
structure URLTranslator where
  legacy_spec : CondensedOpenAPI
  new_spec : CondensedOpenAPI
  legacy_op_map : OpMap
deriving DecidableEq, Repr

/-- `URLTranslator.__init__`. -/
def URLTranslator.make (legacy new : OpenAPISpec) : URLTranslator :=
  let ls := CondensedOpenAPI.from_spec legacy
  ⟨ls, CondensedOpenAPI.from_spec new, build_op_map ls⟩

/-- The Python exceptions that can escape the translation pass. -/
inductive PyErr where
  | translationError
  | stopIteration
  | typeError
  | valueError
  | ioError
deriving DecidableEq, Repr

/-- `LegacyURLComponents` (`shared.py`). -/
structure LegacyURLComponents where
  tag : Option (List Char)
  summary : Option (List Char)
  anchor : Option (List Char)
deriving DecidableEq, Repr

/-- `TranslationMeta` (`translation.py`). -/
structure TranslationMeta where
  before : List Char
  after : Option (List Char)
  file : Option (List Char)
  location : Option (Nat × Nat)
deriving DecidableEq, Repr

/-- Index of the last newline in a list, if any (Python `str.rfind`). -/
def lastNewlinePos (l : List Char) : Option Nat :=
  ((l.enum.filter (fun p => p.2 = '\n')).map Prod.fst).getLast?

/-- `TranslationMeta.get_match_location` (`os.linesep` is `"\n"` here). -/
def get_match_location (content : List Char) (absPos : Nat) : Nat × Nat :=
  let pre := content.take absPos
  (pre.count '\n' + 1,
   match lastNewlinePos pre with
   | some i => absPos - i
   | none => absPos + 1)

/-- `URLTranslator.get_equivalent_operation`. -/
def get_equivalent_operation (T : URLTranslator)
    (legacy_operation : CondensedOperation) : Except PyErr CondensedOperation :=
  let key : PathKey :=
    ("/\x7b\x7d".data ++ legacy_operation.path, legacy_operation.method)
  match lookupA T.new_spec.paths key with
  | none => .error .translationError
  | some op => .ok op

/-- The tail of `_translate_from_components` once a legacy operation has been
resolved: look up the equivalent new-spec operation and return its
external-docs URL, raising `TranslationError` when either step fails. -/
def translate_resolved (T : URLTranslator) (legacy_op : CondensedOperation) :
    Except PyErr (Option (List Char)) :=
  match get_equivalent_operation T legacy_op with
  | .error e => .error e
  | .ok new_op =>
    match new_op.ext_docs_url with
    | none => .error .translationError
    | some u => .ok (some u)

/-- `URLTranslator._translate_from_components`.  `.ok none` models the Python
function returning `None` (possible only from the tag-less root branch);
`.error .stopIteration` models the uncaught `StopIteration` that `next` raises
when no legacy operation has the matched tag. -/
def translate_from_components (T : URLTranslator)
    (components : LegacyURLComponents) : Except PyErr (Option (List Char)) :=
  match components.tag with
  | none => .ok T.new_spec.root_docs_url
  | some tg =>
    match components.summary with
    | none =>
      match T.legacy_op_map.find? (fun p => p.1.1 = tg) with
      | none => .error .stopIteration
      | some kv => translate_resolved T kv.2
    | some sm =>
      match lookupA T.legacy_op_map (tg, sm) with
      | none => .error .translationError
      | some op => translate_resolved T op

/-- The components handed to `LegacyURLComponents(**match.groupdict())`. -/
def compsOf (st : MState) : LegacyURLComponents :=
  ⟨st.tag, st.summary, st.anchor⟩

/-- `_sub_handler` inside `replace_urls`, for one match: returns the
replacement text and the metadata entry appended to `replacements` (if any).
`.error .typeError` models `re.sub` rejecting the `None` the handler returns
when a tag-less URL is translated against a spec with no root docs URL. -/
def sub_handler (T : URLTranslator) (force : Bool) (path : Option (List Char))
    (target : List Char) (pos : Nat) (matched : List Char)
    (components : LegacyURLComponents) :
    Except PyErr (List Char × Option TranslationMeta) :=
  match translate_from_components T components with
  | .ok (some url) =>
    .ok (url, some ⟨matched, some url, path, some (get_match_location target pos)⟩)
  | .ok none => .error .typeError
  | .error .translationError =>
    if force then .ok (matched, none) else .error .translationError
  | .error e => .error e

/-- The scan of `LEGACY_URL_REGEX.sub`: try a match at each position, replace
and jump past a match, otherwise copy one character.  `pos` is the absolute
offset in `target`; the fuel (one unit per scan step, each consuming at least
one character) makes the recursion structural. -/
def subGoF (T : URLTranslator) (force : Bool) (path : Option (List Char))
    (target : List Char) :
    Nat → Nat → List Char → Except PyErr (List Char × List TranslationMeta)
  | _, _, [] => .ok ([], [])
  | 0, _, _ :: _ => .ok ([], [])
  | fuel + 1, pos, c :: rest =>
    match pymatch (c :: rest) with
    | none =>
      match subGoF T force path target fuel (pos + 1) rest with
      | .error e => .error e
      | .ok (out, ms) => .ok (c :: out, ms)
    | some st =>
      let k := (c :: rest).length - st.rest.length
      match sub_handler T force path target pos ((c :: rest).take k) (compsOf st) with
      | .error e => .error e
      | .ok (repl, mo) =>
        match subGoF T force path target fuel (pos + k) st.rest with
        | .error e => .error e
        | .ok (out, ms) => .ok (repl ++ out, mo.toList ++ ms)

/-- `URLTranslator.replace_urls`: the rewritten text and the replacement
metadata, or the exception that escapes. -/
def replace_urls (T : URLTranslator) (target : List Char) (force : Bool)
    (path : Option (List Char)) : Except PyErr (List Char × List TranslationMeta) :=
  subGoF T force path target target.length 0 target

/-- One piece of the scanner's decomposition of the input: a character outside
every match, or a matched span with its capture state. -/
inductive SubPiece where
  | lit (c : Char)
  | mtch (pos : Nat) (matched : List Char) (st : MState)
deriving DecidableEq, Repr

/-- The decomposition of the input that the `re.sub` scan induces. -/
def scanPiecesF : Nat → Nat → List Char → List SubPiece
  | _, _, [] => []
  | 0, _, _ :: _ => []
  | fuel + 1, pos, c :: rest =>
    match pymatch (c :: rest) with
    | none => .lit c :: scanPiecesF fuel (pos + 1) rest
    | some st =>
      let k := (c :: rest).length - st.rest.length
      .mtch pos ((c :: rest).take k) st :: scanPiecesF fuel (pos + k) st.rest

/-- The scan decomposition of a whole target string. -/
def scanPieces (target : List Char) : List SubPiece :=
  scanPiecesF target.length 0 target

/-- The original text a piece stands for. -/
def pieceOrig : SubPiece → List Char
  | .lit c => [c]
  | .mtch _ matched _ => matched

/-- Running the substitution handler over an already-computed decomposition;
`subGoF` is proved equal to this composed with `scanPiecesF`. -/
def piecesRun (T : URLTranslator) (force : Bool) (path : Option (List Char))
    (target : List Char) :
    List SubPiece → Except PyErr (List Char × List TranslationMeta)
  | [] => .ok ([], [])
  | .lit c :: ps =>
    match piecesRun T force path target ps with
    | .error e => .error e
    | .ok (out, ms) => .ok (c :: out, ms)
  | .mtch pos matched st :: ps =>
    match sub_handler T force path target pos matched (compsOf st) with
    | .error e => .error e
    | .ok (repl, mo) =>
      match piecesRun T force path target ps with
      | .error e => .error e
      | .ok (out, ms) => .ok (repl ++ out, mo.toList ++ ms)

/-! ## CLI layer: pickling and the replace command -/

/-- The file-system state the CLI touches: text files and pickle binaries.
Pickled translators are modelled as stored values, the external `pickle`
library being assumed to round-trip faithfully. -/
structure CLIFS where
  files : List (List Char × List Char)
  pickles : List (List Char × URLTranslator)
deriving DecidableEq

/-- `PICKLE_PATH` (`shared.py`), modelled as the bare file name. -/
def PICKLE_PATH : List Char := "specdata.bin".data

/-- `URLTranslator.pickle`. -/
def URLTranslator.pickleTo (T : URLTranslator) (fs : CLIFS) (path : List Char) :
    CLIFS :=
  ⟨fs.files, insertA fs.pickles path T⟩

/-- `URLTranslator.load_pickled`. -/
def URLTranslator.load_pickled (fs : CLIFS) (path : List Char) :
    Option URLTranslator :=
  lookupA fs.pickles path

/-- A file-system access performed by the replace command. -/
inductive FileEvent where
  | read (path : List Char)
  | write (path : List Char)
deriving DecidableEq, Repr

/-- The per-file loop of `ReplaceCommand.execute`. -/
def replaceLoop (T : URLTranslator) (force write_changes : Bool) :
    CLIFS → List FileEvent → List (List Char) → List FileEvent × Except PyErr CLIFS
  | fs, evs, [] => (evs, .ok fs)
  | fs, evs, file :: files =>
    let evs1 := evs ++ [.read file]
    match lookupA fs.files file with
    | none => (evs1, .error .ioError)
    | some content =>
      match replace_urls T content force (some file) with
      | .error e => (evs1, .error e)
      | .ok (updated, _) =>
        if write_changes then
          replaceLoop T force write_changes ⟨insertA fs.files file updated, fs.pickles⟩
            (evs1 ++ [.write file]) files
        else replaceLoop T force write_changes fs evs1 files

/-- `ReplaceCommand.execute` (`commands/root/replace.py`): load the pickled
translator, validate the flag/path combination, then process each target file.
Returns the trace of file accesses alongside the outcome. -/
def replace_execute (fs : CLIFS) (paths : List (List Char))
    (write_changes force : Bool) : List FileEvent × Except PyErr CLIFS :=
  match URLTranslator.load_pickled fs PICKLE_PATH with
  | none => ([.read PICKLE_PATH], .error .ioError)
  | some T =>
    if write_changes = false ∧ paths.length > 1 then
      ([.read PICKLE_PATH], .error .valueError)
    else replaceLoop T force write_changes fs [.read PICKLE_PATH] paths

/-! ## Declarative description of `LEGACY_URL_REGEX`

These predicates spell out, structurally, what it means for a candidate
capture state to arise from a decomposition of the input along the regex's
sequence of pieces; `matchCands` is proved to enumerate exactly these. -/

/-- A fixed-length pattern consumes a prefix whose characters satisfy the
pattern's predicates position by position. -/
def LitTake (pat : List (Char → Bool)) (l r : List Char) : Prop :=
  ∃ pre, l = pre ++ r ∧ pre.length = pat.length ∧
    ((pat.zip pre).all (fun pc => pc.1 pc.2)) = true

/-- An optional fixed-length pattern. -/
def OptLit (pat : List (Char → Bool)) (l r : List Char) : Prop :=
  LitTake pat l r ∨ r = l

/-- An optional single character. -/
def OptCh (ch : Char) (l r : List Char) : Prop :=
  l = ch :: r ∨ r = l

/-- A one-or-more repetition of a character class consumes a nonempty capture. -/
def PlusTake (p : Char → Bool) (cap l r : List Char) : Prop :=
  cap ≠ [] ∧ (∀ c ∈ cap, p c = true) ∧ l = cap ++ r

/-- An optional capture group over a one-or-more repetition. -/
def OptPlus (p : Char → Bool) (o : Option (List Char)) (l r : List Char) : Prop :=
  (∃ cap, o = some cap ∧ PlusTake p cap l r) ∨ (o = none ∧ r = l)

/-- The optional `__`-prefixed anchor group. -/
def AnchorTake (o : Option (List Char)) (l r : List Char) : Prop :=
  (∃ cap r1, o = some cap ∧ l = '_' :: '_' :: r1 ∧ PlusTake tagChar cap r1 r)
    ∨ (o = none ∧ r = l)

/-- A capture state arises from some decomposition of the input along the
pieces of `LEGACY_URL_REGEX` (dots as wildcards, every separator and group
independently optional). -/
def Decomp (l : List Char) (st : MState) : Prop :=
  ∃ l1 l2 l3 l4 l5 l6 l7,
    OptLit httpsPat l l1 ∧ LitTake mainLitPat l1 l2 ∧ OptCh '/' l2 l3 ∧
    OptPlus tagChar st.tag l3 l4 ∧ OptCh '/' l4 l5 ∧ OptCh '#' l5 l6 ∧
    OptPlus sumChar st.summary l6 l7 ∧ AnchorTake st.anchor l7 st.rest

/-- Drop a literal character sequence from the head of the input. -/
def dropLit : List Char → List Char → Option (List Char)
  | [], l => some l
  | _ :: _, [] => none
  | c :: cs, d :: l => if d = c then dropLit cs l else none

/-- Written from the specification's description of the legacy-URL pattern,
for comparison with the regex actually used: a whole string consisting of an
optional literal `https://www.` prefix, the literal `linode.com/docs/api`,
then optionally a slash-separated tag of word characters and hyphens,
optionally `#` followed by an alphanumeric-and-hyphen summary, and optionally
a `__`-prefixed anchor, ending at the end of the input. -/
def specDescribedURL (l : List Char) : Bool :=
  let afterPre :=
    match dropLit "https://www.".data l with
    | some r => r
    | none => l
  match dropLit "linode.com/docs/api".data afterPre with
  | none => false
  | some r0 =>
    let afterTag : List Char → Bool := fun r =>
      match r with
      | [] => true
      | '#' :: r2 =>
        let sumRun := r2.takeWhile sumChar
        if sumRun.isEmpty then false
        else
          match r2.drop sumRun.length with
          | [] => true
          | '_' :: '_' :: r3 =>
            let aRun := r3.takeWhile tagChar
            !aRun.isEmpty && (r3.drop aRun.length).isEmpty
          | _ => false
      | _ => false
    match r0 with
    | [] => true
    | '/' :: r1 =>
      let tagRun := r1.takeWhile tagChar
      !tagRun.isEmpty && afterTag (r1.drop tagRun.length)
    | '#' :: _ => afterTag r0
    | _ => false

/-! ## Classification of per-match translation outcomes -/

/-- How the translation of one match fails, if it does. -/
def failKind (T : URLTranslator) (st : MState) : Option PyErr :=
  match translate_from_components T (compsOf st) with
  | .ok (some _) => none
  | .ok none => some .typeError
  | .error e => some e

/-- The legacy operation a match's components resolve to, along either the
tag-with-summary or the tag-only branch. -/
def resolvedLegacyOp (T : URLTranslator) (st : MState) : Option CondensedOperation :=
  match st.tag, st.summary with
  | some tg, none => (T.legacy_op_map.find? (fun p => p.1.1 = tg)).map (fun kv => kv.2)
  | some tg, some sm => lookupA T.legacy_op_map (tg, sm)
  | none, _ => none

/-- Failure case (a): both components present, pair absent from the legacy
operation map. -/
def CondA (T : URLTranslator) (st : MState) : Prop :=
  ∃ tg sm, st.tag = some tg ∧ st.summary = some sm ∧
    lookupA T.legacy_op_map (tg, sm) = none

/-- Failure case (b): the resolved legacy operation's key is absent from the
new spec's path index. -/
def CondB (T : URLTranslator) (st : MState) : Prop :=
  ∃ op, resolvedLegacyOp T st = some op ∧
    lookupA T.new_spec.paths ("/\x7b\x7d".data ++ op.path, op.method) = none

/-- Failure case (c): the new-spec operation exists but defines no
external-docs URL. -/
def CondC (T : URLTranslator) (st : MState) : Prop :=
  ∃ op nop, resolvedLegacyOp T st = some op ∧
    lookupA T.new_spec.paths ("/\x7b\x7d".data ++ op.path, op.method) = some nop ∧
    nop.ext_docs_url = none

/-- The output text piece by piece under `force=True`: a successful
translation contributes its URL, a failed one leaves the matched text. -/
def renderForce (T : URLTranslator) : SubPiece → List Char
  | .lit c => [c]
  | .mtch _ matched st =>
    match translate_from_components T (compsOf st) with
    | .ok (some url) => url
    | _ => matched

/-- The metadata entry a piece contributes under `force=True`, if any. -/
def metaForce (T : URLTranslator) (path : Option (List Char)) (target : List Char) :
    SubPiece → Option TranslationMeta
  | .lit _ => none
  | .mtch pos matched st =>
    match translate_from_components T (compsOf st) with
    | .ok (some url) =>
      some ⟨matched, some url, path, some (get_match_location target pos)⟩
    | _ => none

/-- A piece whose translation cannot fail in one of the two ways that escape
even under `force=True` (StopIteration from the tag-only path, TypeError from a
missing root URL).  Executable, so concrete inputs can be checked by `decide`. -/
def pieceSafe (T : URLTranslator) : SubPiece → Bool
  | .lit _ => true
  | .mtch _ _ st =>
    match translate_from_components T (compsOf st) with
    | .error .stopIteration => false
    | .ok none => false
    | _ => true

/-- `out` is obtained from the pieces by keeping every unmatched character in
place and substituting some replacement text for each matched span. -/
inductive RewritePieces : List SubPiece → List Char → Prop where
  | nil : RewritePieces [] []
  | lit {c : Char} {ps : List SubPiece} {out : List Char} :
      RewritePieces ps out → RewritePieces (.lit c :: ps) (c :: out)
  | mtch {pos : Nat} {m : List Char} {st : MState} {ps : List SubPiece}
      {out : List Char} (repl : List Char) :
      RewritePieces ps out → RewritePieces (.mtch pos m st :: ps) (repl ++ out)

/-! ## Concrete example data for witnesses and counterexamples -/

/-- A legacy operation record: tag "Linode Instances", summary "List Linodes". -/
def opdEx : OperationData :=
  ⟨some "List Linodes".data, some ["Linode Instances".data],
   some (some "https://old/li".data)⟩

/-- A small legacy description with one GET operation. -/
def legacyEx : OpenAPISpec :=
  ⟨some (some "https://old/root".data),
   [("/linode/instances".data, ⟨some opdEx, none, none, none⟩)]⟩

/-- The matching new-spec operation, with a TechDocs external-docs URL. -/
def newOpdEx : OperationData :=
  ⟨some "List Linodes".data, some ["Linode Instances".data],
   some (some "https://techdocs/li".data)⟩

/-- A small new-style description whose paths carry the `{apiVersion}`
placeholder. -/
def newEx : OpenAPISpec :=
  ⟨some (some "https://techdocs/root".data),
   [("/\x7bapiVersion\x7d/linode/instances".data, ⟨some newOpdEx, none, none, none⟩)]⟩

/-- A translator over the two small descriptions. -/
def Tex : URLTranslator := URLTranslator.make legacyEx newEx

/-- A translator whose legacy description has no operations at all. -/
def TexEmpty : URLTranslator := URLTranslator.make ⟨none, []⟩ newEx

/-- The condensed legacy operation stored in `Tex`'s operation map. -/
def opW : CondensedOperation :=
  ⟨some "List Linodes".data, some "Linode Instances".data,
   "/linode/instances".data, "get".data, some "https://old/li".data⟩

/-- The condensed new-spec operation stored in `Tex`'s new path index. -/
def nopW : CondensedOperation :=
  ⟨some "List Linodes".data, some "Linode Instances".data,
   "/\x7b\x7d/linode/instances".data, "get".data, some "https://techdocs/li".data⟩

/-- A file system with two text files and a baked translator. -/
def fsEx : CLIFS :=
  ⟨[("a.md".data, "x linode.com/docs/api y".data), ("b.md".data, "plain".data)],
   [(PICKLE_PATH, Tex)]⟩

/-! ## Basic lemmas: association-list dictionaries -/

instance {ε α : Type} [DecidableEq ε] [DecidableEq α] : DecidableEq (Except ε α) := fun a b =>
  match a, b with
  | .error x, .error y =>
    if h : x = y then .isTrue (by rw [h])
    else .isFalse (by intro he; injection he; exact h (by assumption))
  | .error _, .ok _ => .isFalse (by intro he; exact Except.noConfusion he)
  | .ok _, .error _ => .isFalse (by intro he; exact Except.noConfusion he)
  | .ok x, .ok y =>
    if h : x = y then .isTrue (by rw [h])
    else .isFalse (by intro he; injection he; exact h (by assumption))

theorem lookupA_isSome_iff {K V : Type} [DecidableEq K] (m : List (K × V)) (k : K) :
    (lookupA m k).isSome ↔ ∃ v, (k, v) ∈ m := by
  induction m with
  | nil => simp [lookupA]
  | cons kv r ih =>
    obtain ⟨k', v⟩ := kv
    by_cases h : k' = k
    · subst h
      simp [lookupA]
    · simp only [lookupA, if_neg h, ih, List.mem_cons]
      constructor
      · rintro ⟨v', hv'⟩; exact ⟨v', Or.inr hv'⟩
      · rintro ⟨v', h' | h'⟩
        · exact absurd (congrArg Prod.fst h').symm h
        · exact ⟨v', h'⟩

theorem lookupA_append {K V : Type} [DecidableEq K] (m1 m2 : List (K × V)) (k : K) :
    lookupA (m1 ++ m2) k =
      match lookupA m1 k with
      | some v => some v
      | none => lookupA m2 k := by
  induction m1 with
  | nil => simp [lookupA]
  | cons kv r ih =>
    obtain ⟨k', v⟩ := kv
    by_cases h : k' = k <;> simp [lookupA, h, ih]

theorem lookupA_map_keyfix {K V : Type} [DecidableEq K] (m : List (K × V)) (k k' : K) (v : V) :
    (lookupA (m.map (fun p => if p.1 = k then (k, v) else p)) k').isSome
      = (lookupA m k').isSome := by
  induction m with
  | nil => simp [lookupA]
  | cons kv r ih =>
    obtain ⟨k1, v1⟩ := kv
    simp only [List.map_cons]
    by_cases h1 : k1 = k
    · subst h1
      rw [if_pos rfl]
      by_cases h2 : k1 = k'
      · subst h2; simp [lookupA]
      · simp only [lookupA, if_neg h2]; exact ih
    · rw [if_neg h1]
      by_cases h2 : k1 = k'
      · subst h2; simp [lookupA]
      · simp only [lookupA, if_neg h2]; exact ih

theorem lookupA_map_keyfix_self {K V : Type} [DecidableEq K] (m : List (K × V))
    (k : K) (v : V) (hmem : ∃ v', (k, v') ∈ m) :
    lookupA (m.map (fun p => if p.1 = k then (k, v) else p)) k = some v := by
  induction m with
  | nil => simp at hmem
  | cons kv r ih =>
    obtain ⟨k1, v1⟩ := kv
    simp only [List.map_cons]
    by_cases h1 : k1 = k
    · subst h1
      rw [if_pos rfl]
      simp [lookupA]
    · rw [if_neg h1]
      simp only [lookupA, if_neg h1]
      apply ih
      rcases hmem with ⟨v', hv'⟩
      rcases List.mem_cons.mp hv' with heq | hmem'
      · exact absurd (congrArg Prod.fst heq).symm h1
      · exact ⟨v', hmem'⟩

theorem not_any_lookupA_none {K V : Type} [DecidableEq K] (m : List (K × V)) (k : K)
    (hany : ¬ m.any (fun p => p.1 = k) = true) : lookupA m k = none := by
  rcases h : lookupA m k with _ | v
  · rfl
  · exfalso
    apply hany
    rw [List.any_eq_true]
    have hsome : (lookupA m k).isSome := by rw [h]; rfl
    rcases (lookupA_isSome_iff m k).mp hsome with ⟨v', hv'⟩
    exact ⟨(k, v'), hv', by simp⟩

theorem lookupA_insertA_isSome {K V : Type} [DecidableEq K] (m : List (K × V))
    (k k' : K) (v : V) :
    (lookupA (insertA m k v) k').isSome ↔ k' = k ∨ (lookupA m k').isSome := by
  unfold insertA
  by_cases hany : m.any (fun p => p.1 = k)
  · rw [if_pos hany, lookupA_map_keyfix]
    constructor
    · exact Or.inr
    · rintro (rfl | h)
      · rw [lookupA_isSome_iff]
        rcases List.any_eq_true.mp hany with ⟨⟨k1, v1⟩, hmem, hk⟩
        simp only [decide_eq_true_eq] at hk
        subst hk
        exact ⟨v1, hmem⟩
      · exact h
  · rw [if_neg hany, lookupA_append]
    rcases h : lookupA m k' with _ | v'
    · show (lookupA [(k, v)] k').isSome ↔ k' = k ∨ (none : Option V).isSome
      by_cases hk : k = k'
      · subst hk; simp [lookupA]
      · simp only [lookupA, if_neg hk]
        constructor
        · intro hf; cases hf
        · rintro (rfl | hs)
          · exact absurd rfl hk
          · cases hs
    · simp

theorem lookupA_insertA_self {K V : Type} [DecidableEq K] (m : List (K × V))
    (k : K) (v : V) :
    lookupA (insertA m k v) k = some v := by
  unfold insertA
  by_cases hany : m.any (fun p => p.1 = k)
  · rw [if_pos hany]
    apply lookupA_map_keyfix_self
    rcases List.any_eq_true.mp hany with ⟨⟨k1, v1⟩, hmem, hk⟩
    simp only [decide_eq_true_eq] at hk
    subst hk
    exact ⟨v1, hmem⟩
  · rw [if_neg hany, lookupA_append, not_any_lookupA_none m k hany]
    simp [lookupA]

theorem lookupA_foldl_insert {K V : Type} [DecidableEq K] (L : List (K × V))
    (acc : List (K × V)) (k : K) :
    (lookupA (L.foldl (fun a kv => insertA a kv.1 kv.2) acc) k).isSome ↔
      (∃ v, (k, v) ∈ L) ∨ (lookupA acc k).isSome := by
  induction L generalizing acc with
  | nil => simp
  | cons kv L ih =>
    obtain ⟨k1, v1⟩ := kv
    rw [List.foldl_cons, ih, lookupA_insertA_isSome]
    simp only [List.mem_cons, Prod.mk.injEq]
    constructor
    · rintro (⟨v, hv⟩ | rfl | h)
      · exact Or.inl ⟨v, Or.inr hv⟩
      · exact Or.inl ⟨v1, Or.inl ⟨rfl, rfl⟩⟩
      · exact Or.inr h
    · rintro (⟨v, ⟨rfl, rfl⟩ | hv⟩ | h)
      · exact Or.inr (Or.inl rfl)
      · exact Or.inl ⟨v, hv⟩
      · exact Or.inr (Or.inr h)

theorem foldl_condense_flat (L : List (List Char × PathItem)) (acc : OpMap) :
    L.foldl (fun a pr => (condenseItem pr).foldl (fun a2 kv => insertA a2 kv.1 kv.2) a) acc
      = (L.flatMap condenseItem).foldl (fun a kv => insertA a kv.1 kv.2) acc := by
  induction L generalizing acc with
  | nil => simp
  | cons pr L ih =>
    rw [List.foldl_cons, List.flatMap_cons, List.foldl_append, ih]

theorem mem_condenseItem (pr : List Char × PathItem) (key : PathKey)
    (v : CondensedOperation) :
    (key, v) ∈ condenseItem pr ↔
      ∃ slot ∈ valid_paths, ∃ opd, slot.2 pr.2 = some opd ∧
        v = CondensedOperation.from_operation pr.1 slot.1 opd ∧
        key = (strip_url_ids pr.1, slot.1) := by
  unfold condenseItem
  rw [List.mem_filterMap]
  constructor
  · rintro ⟨slot, hslot, hf⟩
    rcases hopt : slot.2 pr.2 with _ | opd
    · rw [hopt] at hf; cases hf
    · rw [hopt] at hf
      have hf2 := Option.some.inj hf
      refine ⟨slot, hslot, opd, hopt, ?_, ?_⟩
      · exact (congrArg Prod.snd hf2).symm
      · exact (congrArg Prod.fst hf2).symm
  · rintro ⟨slot, hslot, opd, hopt, rfl, rfl⟩
    refine ⟨slot, hslot, ?_⟩
    rw [hopt]
    rfl

theorem from_spec_paths_isSome (spec : OpenAPISpec) (key : PathKey) :
    (lookupA (CondensedOpenAPI.from_spec spec).paths key).isSome ↔
      ∃ pr ∈ spec.paths, ∃ v, (key, v) ∈ condenseItem pr := by
  show (lookupA
      (spec.paths.foldl
        (fun acc pr => (condenseItem pr).foldl (fun a2 kv => insertA a2 kv.1 kv.2) acc) [])
      key).isSome ↔ _
  rw [foldl_condense_flat, lookupA_foldl_insert,
    show (lookupA ([] : OpMap) key) = none from rfl]
  simp only [Option.isSome_none, Bool.false_eq_true, or_false]
  constructor
  · rintro ⟨v, hv⟩
    rcases List.mem_flatMap.mp hv with ⟨pr, hpr, hmem⟩
    exact ⟨pr, hpr, v, hmem⟩
  · rintro ⟨pr, hpr, v, hv⟩
    exact ⟨v, List.mem_flatMap.mpr ⟨pr, hpr, hv⟩⟩

theorem build_fold_filterMap (L : OpMap) (acc : OpMap) :
    L.foldl
      (fun a kv =>
        match kv.2.tag, kv.2.summary with
        | some t, some s =>
          insertA a (flatten_path_for_url t, flatten_path_for_url s) kv.2
        | _, _ => a) acc
      = (L.filterMap (fun kv =>
          match kv.2.tag, kv.2.summary with
          | some t, some s =>
            some ((flatten_path_for_url t, flatten_path_for_url s), kv.2)
          | _, _ => none)).foldl (fun a kv => insertA a kv.1 kv.2) acc := by
  induction L generalizing acc with
  | nil => rfl
  | cons kv L ih =>
    obtain ⟨k1, op⟩ := kv
    obtain ⟨sm, tg, pth, mth, edu⟩ := op
    rcases tg with _ | t0
    · exact ih acc
    · rcases sm with _ | s0
      · exact ih acc
      · exact ih _

theorem build_op_map_isSome (c : CondensedOpenAPI) (key : List Char × List Char) :
    (lookupA (build_op_map c) key).isSome ↔
      ∃ kv ∈ c.paths, ∃ t0 s0, kv.2.tag = some t0 ∧ kv.2.summary = some s0 ∧
        key = (flatten_path_for_url t0, flatten_path_for_url s0) := by
  unfold build_op_map
  rw [build_fold_filterMap, lookupA_foldl_insert,
    show (lookupA ([] : OpMap) key) = none from rfl]
  simp only [Option.isSome_none, Bool.false_eq_true, or_false]
  constructor
  · rintro ⟨v, hv⟩
    rcases List.mem_filterMap.mp hv with ⟨kv, hkv, hf⟩
    obtain ⟨k1, op⟩ := kv
    obtain ⟨sm, tg, pth, mth, edu⟩ := op
    rcases tg with _ | t0
    · cases hf
    · rcases sm with _ | s0
      · cases hf
      · have h2 := Option.some.inj hf
        exact ⟨_, hkv, t0, s0, rfl, rfl, (congrArg Prod.fst h2).symm⟩
  · rintro ⟨kv, hkv, t0, s0, htag, hsum, rfl⟩
    obtain ⟨k1, op⟩ := kv
    obtain ⟨sm, tg, pth, mth, edu⟩ := op
    have htag2 : tg = some t0 := htag
    have hsum2 : sm = some s0 := hsum
    subst htag2
    subst hsum2
    exact ⟨_, List.mem_filterMap.mpr ⟨_, hkv, rfl⟩⟩

/-! ## The matcher enumerates exactly the declarative decompositions -/

theorem matchLit_some_iff (pat : List (Char → Bool)) (l r : List Char) :
    matchLit pat l = some r ↔ LitTake pat l r := by
  induction pat generalizing l with
  | nil =>
    simp only [matchLit, Option.some.injEq, LitTake]
    constructor
    · rintro rfl
      exact ⟨[], rfl, rfl, rfl⟩
    · rintro ⟨pre, hl, hlen, _⟩
      have hpre : pre = [] := List.length_eq_zero.mp hlen
      subst hpre
      simpa using hl
  | cons p ps ih =>
    cases l with
    | nil =>
      simp only [matchLit, LitTake]
      constructor
      · rintro h; cases h
      · rintro ⟨pre, hl, hlen, _⟩
        cases pre with
        | nil => cases hlen
        | cons c pre' => cases hl
    | cons c l' =>
      simp only [matchLit]
      by_cases hpc : p c
      · rw [if_pos hpc, ih]
        unfold LitTake
        constructor
        · rintro ⟨pre, rfl, hlen, hall⟩
          refine ⟨c :: pre, rfl, by simp [hlen], ?_⟩
          simp only [List.zip_cons_cons, List.all_cons, Bool.and_eq_true]
          exact ⟨hpc, hall⟩
        · rintro ⟨pre, hl, hlen, hall⟩
          cases pre with
          | nil => cases hlen
          | cons c0 pre' =>
            obtain ⟨hc, hl'⟩ := List.cons.inj hl
            subst hc
            refine ⟨pre', hl', by simpa using hlen, ?_⟩
            simp only [List.zip_cons_cons, List.all_cons, Bool.and_eq_true] at hall
            exact hall.2
      · rw [if_neg hpc]
        constructor
        · rintro h; cases h
        · rintro ⟨pre, hl, hlen, hall⟩
          cases pre with
          | nil => cases hlen
          | cons c0 pre' =>
            obtain ⟨hc, _⟩ := List.cons.inj hl
            subst hc
            simp only [List.zip_cons_cons, List.all_cons, Bool.and_eq_true] at hall
            exact absurd hall.1 hpc

theorem mem_optPre (l r : List Char) : r ∈ optPre l ↔ OptLit httpsPat l r := by
  unfold optPre OptLit
  rcases h : matchLit httpsPat l with _ | r0
  · simp only [List.mem_singleton]
    constructor
    · exact Or.inr
    · rintro (hlt | rfl)
      · rw [← matchLit_some_iff, h] at hlt
        cases hlt
      · rfl
  · simp only [List.mem_cons, List.mem_singleton, List.not_mem_nil, or_false]
    constructor
    · rintro (rfl | rfl)
      · exact Or.inl ((matchLit_some_iff _ _ _).mp h)
      · exact Or.inr rfl
    · rintro (hlt | rfl)
      · rw [← matchLit_some_iff, h] at hlt
        exact Or.inl (Option.some.inj hlt).symm
      · exact Or.inr rfl

theorem optChar_nil (ch : Char) : optChar ch [] = [[]] := rfl

theorem optChar_cons (ch c : Char) (l : List Char) :
    optChar ch (c :: l) = if c = ch then [l, c :: l] else [c :: l] := rfl

theorem mem_optChar (ch : Char) (l r : List Char) :
    r ∈ optChar ch l ↔ OptCh ch l r := by
  unfold OptCh
  cases l with
  | nil =>
    rw [optChar_nil]
    simp only [List.mem_singleton]
    constructor
    · rintro rfl; exact Or.inr rfl
    · rintro (h | rfl)
      · cases h
      · rfl
  | cons c l' =>
    rw [optChar_cons]
    by_cases hc : c = ch
    · subst hc
      rw [if_pos rfl]
      simp only [List.mem_cons, List.mem_singleton, List.not_mem_nil, or_false]
      constructor
      · rintro (rfl | rfl)
        · exact Or.inl rfl
        · exact Or.inr rfl
      · rintro (hl | rfl)
        · exact Or.inl (List.cons.inj hl).2.symm
        · exact Or.inr rfl
    · rw [if_neg hc]
      simp only [List.mem_singleton]
      constructor
      · rintro rfl; exact Or.inr rfl
      · rintro (hl | rfl)
        · exact absurd (List.cons.inj hl).1 hc
        · rfl

theorem plusCands_nil (p : Char → Bool) : plusCands p [] = [] := rfl

theorem plusCands_cons (p : Char → Bool) (c : Char) (l : List Char) :
    plusCands p (c :: l) =
      if p c then (plusCands p l).map (fun pr => (c :: pr.1, pr.2)) ++ [([c], l)]
      else [] := rfl

theorem mem_plusCands (p : Char → Bool) (l : List Char) : ∀ cap r : List Char,
    (cap, r) ∈ plusCands p l ↔ PlusTake p cap l r := by
  induction l with
  | nil =>
    intro cap r
    rw [plusCands_nil]
    constructor
    · intro h; cases h
    · rintro ⟨hne, _, happ⟩
      cases cap with
      | nil => exact absurd rfl hne
      | cons c0 cap' => cases happ
  | cons c l' ih =>
    intro cap r
    rw [plusCands_cons]
    by_cases hpc : p c
    · rw [if_pos hpc]
      constructor
      · intro hmem
        rcases List.mem_append.mp hmem with hmap | hone
        · rcases List.mem_map.mp hmap with ⟨⟨cap', r'⟩, hmem', heq⟩
          cases heq
          rcases (ih cap' r').mp hmem' with ⟨hne, hall, happ⟩
          refine ⟨List.cons_ne_nil _ _, ?_, by simp [happ]⟩
          intro x hx
          rcases List.mem_cons.mp hx with rfl | hx'
          · exact hpc
          · exact hall x hx'
        · have heq := List.mem_singleton.mp hone
          rw [Prod.mk.injEq] at heq
          obtain ⟨rfl, rfl⟩ := heq
          refine ⟨List.cons_ne_nil _ _, ?_, rfl⟩
          intro x hx
          rcases List.mem_cons.mp hx with rfl | hx'
          · exact hpc
          · cases hx'
      · rintro ⟨hne, hall, happ⟩
        cases cap with
        | nil => exact absurd rfl hne
        | cons c0 cap' =>
          obtain ⟨hc0, hl'⟩ := List.cons.inj happ
          subst hc0
          cases cap' with
          | nil =>
            apply List.mem_append.mpr
            right
            apply List.mem_singleton.mpr
            rw [Prod.mk.injEq]
            exact ⟨rfl, by simpa using hl'.symm⟩
          | cons c1 cap'' =>
            apply List.mem_append.mpr
            left
            apply List.mem_map.mpr
            refine ⟨(c1 :: cap'', r), ?_, rfl⟩
            apply (ih _ _).mpr
            refine ⟨List.cons_ne_nil _ _, ?_, hl'⟩
            intro x hx
            exact hall x (List.mem_cons_of_mem _ hx)
    · rw [if_neg hpc]
      constructor
      · intro h; cases h
      · rintro ⟨hne, hall, happ⟩
        cases cap with
        | nil => exact absurd rfl hne
        | cons c0 cap' =>
          obtain ⟨hc0, _⟩ := List.cons.inj happ
          subst hc0
          exact absurd (hall _ (List.mem_cons_self _ _)) hpc

theorem mem_optGroup (p : Char → Bool) (l : List Char) (o : Option (List Char))
    (r : List Char) :
    (o, r) ∈ optGroup p l ↔ OptPlus p o l r := by
  unfold optGroup OptPlus
  simp only [List.mem_append, List.mem_map, List.mem_singleton, Prod.mk.injEq]
  constructor
  · rintro (⟨⟨cap, r'⟩, hmem, heq1, rfl⟩ | ⟨rfl, rfl⟩)
    · exact Or.inl ⟨cap, heq1.symm, (mem_plusCands p l cap _).mp hmem⟩
    · exact Or.inr ⟨rfl, rfl⟩
  · rintro (⟨cap, rfl, hpt⟩ | ⟨rfl, rfl⟩)
    · exact Or.inl ⟨(cap, r), (mem_plusCands p l cap r).mpr hpt, rfl, rfl⟩
    · exact Or.inr ⟨rfl, rfl⟩

theorem anchorCands_nil : anchorCands [] = [(none, [])] := rfl

theorem anchorCands_single (c : Char) : anchorCands [c] = [(none, [c])] := rfl

theorem anchorCands_cons_cons (c1 c2 : Char) (r : List Char) :
    anchorCands (c1 :: c2 :: r) =
      (if c1 = '_' then
        if c2 = '_' then (plusCands tagChar r).map (fun pr => (some pr.1, pr.2))
        else []
      else []) ++ [(none, c1 :: c2 :: r)] := rfl

theorem mem_anchorCands (l : List Char) (o : Option (List Char)) (r : List Char) :
    (o, r) ∈ anchorCands l ↔ AnchorTake o l r := by
  unfold AnchorTake
  rcases l with _ | ⟨c1, _ | ⟨c2, r1⟩⟩
  · rw [anchorCands_nil]
    simp only [List.mem_singleton, Prod.mk.injEq]
    constructor
    · rintro ⟨rfl, rfl⟩; exact Or.inr ⟨rfl, rfl⟩
    · rintro (⟨cap, r1, _, habs, _⟩ | ⟨rfl, rfl⟩)
      · cases habs
      · exact ⟨rfl, rfl⟩
  · rw [anchorCands_single]
    simp only [List.mem_singleton, Prod.mk.injEq]
    constructor
    · rintro ⟨rfl, rfl⟩; exact Or.inr ⟨rfl, rfl⟩
    · rintro (⟨cap, r1, _, habs, _⟩ | ⟨rfl, rfl⟩)
      · cases habs
      · exact ⟨rfl, rfl⟩
  · rw [anchorCands_cons_cons]
    by_cases h1 : c1 = '_'
    · subst h1
      by_cases h2 : c2 = '_'
      · subst h2
        rw [if_pos rfl, if_pos rfl]
        simp only [List.mem_append, List.mem_map, List.mem_singleton, Prod.mk.injEq]
        constructor
        · rintro (⟨⟨cap, r'⟩, hmem, heq1, rfl⟩ | ⟨rfl, rfl⟩)
          · exact Or.inl ⟨cap, r1, heq1.symm, rfl, (mem_plusCands _ _ _ _).mp hmem⟩
          · exact Or.inr ⟨rfl, rfl⟩
        · rintro (⟨cap, r1', rfl, heq, hpt⟩ | ⟨rfl, rfl⟩)
          · obtain ⟨_, heq'⟩ := List.cons.inj heq
            obtain ⟨_, hr1⟩ := List.cons.inj heq'
            subst hr1
            exact Or.inl ⟨(cap, r), (mem_plusCands _ _ _ _).mpr hpt, rfl, rfl⟩
          · exact Or.inr ⟨rfl, rfl⟩
      · rw [if_pos rfl, if_neg h2]
        simp only [List.nil_append, List.mem_singleton, Prod.mk.injEq]
        constructor
        · rintro ⟨rfl, rfl⟩; exact Or.inr ⟨rfl, rfl⟩
        · rintro (⟨cap, r1', _, heq, _⟩ | ⟨rfl, rfl⟩)
          · obtain ⟨_, heq'⟩ := List.cons.inj heq
            exact absurd (List.cons.inj heq').1 h2
          · exact ⟨rfl, rfl⟩
    · rw [if_neg h1]
      simp only [List.nil_append, List.mem_singleton, Prod.mk.injEq]
      constructor
      · rintro ⟨rfl, rfl⟩; exact Or.inr ⟨rfl, rfl⟩
      · rintro (⟨cap, r1', _, heq, _⟩ | ⟨rfl, rfl⟩)
        · exact absurd (List.cons.inj heq).1 h1
        · exact ⟨rfl, rfl⟩

theorem mem_matchCands (l : List Char) (st : MState) :
    st ∈ matchCands l ↔ Decomp l st := by
  obtain ⟨rest, tg, sm, an⟩ := st
  unfold matchCands Decomp
  constructor
  · intro hmem
    rcases List.mem_flatMap.mp hmem with ⟨l1, hl1, hrest⟩
    rcases hml : matchLit mainLitPat l1 with _ | l2
    · rw [hml] at hrest; cases hrest
    · rw [hml] at hrest
      rcases List.mem_flatMap.mp hrest with ⟨l3, hl3, hrest2⟩
      rcases List.mem_flatMap.mp hrest2 with ⟨⟨tg', l4⟩, htl, hrest3⟩
      rcases List.mem_flatMap.mp hrest3 with ⟨l5, hl5, hrest4⟩
      rcases List.mem_flatMap.mp hrest4 with ⟨l6, hl6, hrest5⟩
      rcases List.mem_flatMap.mp hrest5 with ⟨⟨sm', l7⟩, hsl, hrest6⟩
      rcases List.mem_map.mp hrest6 with ⟨⟨an', r'⟩, hal, heq⟩
      cases heq
      exact ⟨l1, l2, l3, l4, l5, l6, l7,
        (mem_optPre _ _).mp hl1, (matchLit_some_iff _ _ _).mp hml,
        (mem_optChar _ _ _).mp hl3, (mem_optGroup _ _ _ _).mp htl,
        (mem_optChar _ _ _).mp hl5, (mem_optChar _ _ _).mp hl6,
        (mem_optGroup _ _ _ _).mp hsl, (mem_anchorCands _ _ _).mp hal⟩
  · rintro ⟨l1, l2, l3, l4, l5, l6, l7, h1, h2, h3, h4, h5, h6, h7, h8⟩
    apply List.mem_flatMap.mpr
    refine ⟨l1, (mem_optPre _ _).mpr h1, ?_⟩
    rw [(matchLit_some_iff _ _ _).mpr h2]
    apply List.mem_flatMap.mpr
    refine ⟨l3, (mem_optChar _ _ _).mpr h3, ?_⟩
    apply List.mem_flatMap.mpr
    refine ⟨(tg, l4), (mem_optGroup _ _ _ _).mpr h4, ?_⟩
    apply List.mem_flatMap.mpr
    refine ⟨l5, (mem_optChar _ _ _).mpr h5, ?_⟩
    apply List.mem_flatMap.mpr
    refine ⟨l6, (mem_optChar _ _ _).mpr h6, ?_⟩
    apply List.mem_flatMap.mpr
    refine ⟨(sm, l7), (mem_optGroup _ _ _ _).mpr h7, ?_⟩
    apply List.mem_map.mpr
    exact ⟨(an, rest), (mem_anchorCands _ _ _).mpr h8, rfl⟩

theorem pymatch_some_mem (l : List Char) (st : MState) (h : pymatch l = some st) :
    st ∈ matchCands l ∧ lookOk st.rest = true := by
  have hmem := List.mem_of_mem_head? h
  rcases List.mem_filter.mp hmem with ⟨h1, h2⟩
  exact ⟨h1, h2⟩

theorem pymatch_isSome_of_exists (l : List Char)
    (h : ∃ st, st ∈ matchCands l ∧ lookOk st.rest = true) :
    (pymatch l).isSome := by
  rcases h with ⟨st, hmem, hlook⟩
  have hf : st ∈ (matchCands l).filter (fun st => lookOk st.rest) :=
    List.mem_filter.mpr ⟨hmem, hlook⟩
  unfold pymatch
  rcases hl : (matchCands l).filter (fun st => lookOk st.rest) with _ | ⟨a, tail⟩
  · rw [hl] at hf; cases hf
  · rw [hl]; rfl

/-! ## Consumption: a match takes a nonempty prefix, leaving a suffix -/

theorem litTake_suffix {pat : List (Char → Bool)} {l r : List Char}
    (h : LitTake pat l r) : r <:+ l ∧ r.length + pat.length = l.length := by
  rcases h with ⟨pre, rfl, hlen, _⟩
  exact ⟨⟨pre, rfl⟩, by simp [hlen, Nat.add_comm]⟩

theorem optLit_suffix {pat : List (Char → Bool)} {l r : List Char}
    (h : OptLit pat l r) : r <:+ l ∧ r.length ≤ l.length := by
  rcases h with h | rfl
  · rcases litTake_suffix h with ⟨hs, hlen⟩
    exact ⟨hs, by omega⟩
  · exact ⟨List.suffix_refl _, le_refl _⟩

theorem optCh_suffix {ch : Char} {l r : List Char}
    (h : OptCh ch l r) : r <:+ l ∧ r.length ≤ l.length := by
  rcases h with rfl | rfl
  · exact ⟨⟨[ch], rfl⟩, by simp⟩
  · exact ⟨List.suffix_refl _, le_refl _⟩

theorem plusTake_suffix {p : Char → Bool} {cap l r : List Char}
    (h : PlusTake p cap l r) : r <:+ l ∧ r.length ≤ l.length := by
  rcases h with ⟨_, _, rfl⟩
  exact ⟨⟨cap, rfl⟩, by simp⟩

theorem optPlus_suffix {p : Char → Bool} {o : Option (List Char)} {l r : List Char}
    (h : OptPlus p o l r) : r <:+ l ∧ r.length ≤ l.length := by
  rcases h with ⟨cap, _, hpt⟩ | ⟨_, rfl⟩
  · exact plusTake_suffix hpt
  · exact ⟨List.suffix_refl _, le_refl _⟩

theorem anchorTake_suffix {o : Option (List Char)} {l r : List Char}
    (h : AnchorTake o l r) : r <:+ l ∧ r.length ≤ l.length := by
  rcases h with ⟨cap, r1, _, rfl, hpt⟩ | ⟨_, rfl⟩
  · rcases plusTake_suffix hpt with ⟨hs, hlen⟩
    refine ⟨hs.trans ⟨['_', '_'], rfl⟩, ?_⟩
    simp only [List.length_cons] at *
    omega
  · exact ⟨List.suffix_refl _, le_refl _⟩

theorem decomp_rest_suffix {l : List Char} {st : MState} (h : Decomp l st) :
    st.rest <:+ l ∧ st.rest.length < l.length := by
  rcases h with ⟨l1, l2, l3, l4, l5, l6, l7, h1, h2, h3, h4, h5, h6, h7, h8⟩
  rcases optLit_suffix h1 with ⟨s1, n1⟩
  rcases litTake_suffix h2 with ⟨s2, n2⟩
  rcases optCh_suffix h3 with ⟨s3, n3⟩
  rcases optPlus_suffix h4 with ⟨s4, n4⟩
  rcases optCh_suffix h5 with ⟨s5, n5⟩
  rcases optCh_suffix h6 with ⟨s6, n6⟩
  rcases optPlus_suffix h7 with ⟨s7, n7⟩
  rcases anchorTake_suffix h8 with ⟨s8, n8⟩
  refine ⟨s8.trans (s7.trans (s6.trans (s5.trans (s4.trans (s3.trans
    (s2.trans s1)))))), ?_⟩
  have hpat : mainLitPat.length = 19 := rfl
  omega

theorem pymatch_rest (l : List Char) (st : MState) (h : pymatch l = some st) :
    st.rest <:+ l ∧ st.rest.length < l.length :=
  (decomp_rest_suffix ((mem_matchCands l st).mp (pymatch_some_mem l st h).1))

theorem suffix_take_append {l r : List Char} (h : r <:+ l) :
    l.take (l.length - r.length) ++ r = l := by
  rcases h with ⟨m, rfl⟩
  rw [List.length_append, Nat.add_sub_cancel, List.take_left]

/-! ## The substitution scan equals the decomposition plus the handler fold -/

theorem scanPiecesF_succ_none (fuel pos : Nat) (c : Char) (rest : List Char)
    (h : pymatch (c :: rest) = none) :
    scanPiecesF (fuel + 1) pos (c :: rest) = .lit c :: scanPiecesF fuel (pos + 1) rest := by
  simp only [scanPiecesF]
  rw [h]

theorem scanPiecesF_succ_some (fuel pos : Nat) (c : Char) (rest : List Char)
    (st : MState) (h : pymatch (c :: rest) = some st) :
    scanPiecesF (fuel + 1) pos (c :: rest) =
      .mtch pos ((c :: rest).take ((c :: rest).length - st.rest.length)) st ::
        scanPiecesF fuel (pos + ((c :: rest).length - st.rest.length)) st.rest := by
  conv_lhs => rw [scanPiecesF]
  rw [h]

theorem subGoF_succ_none (T : URLTranslator) (force : Bool) (path : Option (List Char))
    (target : List Char) (fuel pos : Nat) (c : Char) (rest : List Char)
    (h : pymatch (c :: rest) = none) :
    subGoF T force path target (fuel + 1) pos (c :: rest) =
      match subGoF T force path target fuel (pos + 1) rest with
      | .error e => .error e
      | .ok (out, ms) => .ok (c :: out, ms) := by
  simp only [subGoF]
  rw [h]

theorem subGoF_succ_some (T : URLTranslator) (force : Bool) (path : Option (List Char))
    (target : List Char) (fuel pos : Nat) (c : Char) (rest : List Char)
    (st : MState) (h : pymatch (c :: rest) = some st) :
    subGoF T force path target (fuel + 1) pos (c :: rest) =
      match sub_handler T force path target pos
          ((c :: rest).take ((c :: rest).length - st.rest.length)) (compsOf st) with
      | .error e => .error e
      | .ok (repl, mo) =>
        match subGoF T force path target fuel
            (pos + ((c :: rest).length - st.rest.length)) st.rest with
        | .error e => .error e
        | .ok (out, ms) => .ok (repl ++ out, mo.toList ++ ms) := by
  conv_lhs => rw [subGoF, h]

theorem piecesRun_lit (T : URLTranslator) (force : Bool) (path : Option (List Char))
    (target : List Char) (c : Char) (ps : List SubPiece) :
    piecesRun T force path target (.lit c :: ps) =
      match piecesRun T force path target ps with
      | .error e => .error e
      | .ok (out, ms) => .ok (c :: out, ms) := rfl

theorem piecesRun_mtch (T : URLTranslator) (force : Bool) (path : Option (List Char))
    (target : List Char) (pos : Nat) (matched : List Char) (st : MState)
    (ps : List SubPiece) :
    piecesRun T force path target (.mtch pos matched st :: ps) =
      match sub_handler T force path target pos matched (compsOf st) with
      | .error e => .error e
      | .ok (repl, mo) =>
        match piecesRun T force path target ps with
        | .error e => .error e
        | .ok (out, ms) => .ok (repl ++ out, mo.toList ++ ms) := rfl

theorem subGoF_eq_piecesRun (T : URLTranslator) (force : Bool)
    (path : Option (List Char)) (target : List Char) (fuel : Nat) :
    ∀ (pos : Nat) (l : List Char), l.length ≤ fuel →
      subGoF T force path target fuel pos l =
        piecesRun T force path target (scanPiecesF fuel pos l) := by
  induction fuel with
  | zero =>
    intro pos l h
    have hnil : l = [] := List.length_eq_zero.mp (Nat.le_zero.mp h)
    subst hnil
    rfl
  | succ fuel ih =>
    intro pos l hl
    cases l with
    | nil => rfl
    | cons c rest =>
      rcases h : pymatch (c :: rest) with _ | st
      · rw [subGoF_succ_none T force path target fuel pos c rest h,
          scanPiecesF_succ_none fuel pos c rest h, piecesRun_lit,
          ih (pos + 1) rest (by simp only [List.length_cons] at hl; omega)]
      · have hrest := pymatch_rest _ _ h
        rw [subGoF_succ_some T force path target fuel pos c rest st h,
          scanPiecesF_succ_some fuel pos c rest st h, piecesRun_mtch,
          ih (pos + ((c :: rest).length - st.rest.length)) st.rest
            (by
              have h2 := hrest.2
              simp only [List.length_cons] at h2 hl
              omega)]

theorem scanPiecesF_orig (fuel : Nat) :
    ∀ (pos : Nat) (l : List Char), l.length ≤ fuel →
      (scanPiecesF fuel pos l).flatMap pieceOrig = l := by
  induction fuel with
  | zero =>
    intro pos l h
    have hnil : l = [] := List.length_eq_zero.mp (Nat.le_zero.mp h)
    subst hnil
    rfl
  | succ fuel ih =>
    intro pos l hl
    cases l with
    | nil => rfl
    | cons c rest =>
      rcases h : pymatch (c :: rest) with _ | st
      · rw [scanPiecesF_succ_none fuel pos c rest h, List.flatMap_cons,
          ih (pos + 1) rest (by simp only [List.length_cons] at hl; omega)]
        rfl
      · have hrest := pymatch_rest _ _ h
        rw [scanPiecesF_succ_some fuel pos c rest st h, List.flatMap_cons,
          ih (pos + ((c :: rest).length - st.rest.length)) st.rest
            (by
              have h2 := hrest.2
              simp only [List.length_cons] at h2 hl
              omega)]
        exact suffix_take_append hrest.1

theorem replace_urls_eq_piecesRun (T : URLTranslator) (force : Bool)
    (path : Option (List Char)) (target : List Char) :
    replace_urls T target force path =
      piecesRun T force path target (scanPieces target) :=
  subGoF_eq_piecesRun T force path target target.length 0 target (le_refl _)

theorem scanPieces_orig (target : List Char) :
    (scanPieces target).flatMap pieceOrig = target :=
  scanPiecesF_orig target.length 0 target (le_refl _)

theorem piecesRun_rewrites (T : URLTranslator) (force : Bool)
    (path : Option (List Char)) (target : List Char) :
    ∀ (ps : List SubPiece) (out : List Char) (ms : List TranslationMeta),
      piecesRun T force path target ps = .ok (out, ms) → RewritePieces ps out := by
  intro ps
  induction ps with
  | nil =>
    intro out ms h
    cases h
    exact RewritePieces.nil
  | cons p ps ih =>
    intro out ms h
    cases p with
    | lit c =>
      rw [piecesRun_lit] at h
      rcases hrec : piecesRun T force path target ps with e | ⟨out', ms'⟩
      · rw [hrec] at h; cases h
      · rw [hrec] at h
        have h1 := Except.ok.inj h
        have hout : out = c :: out' := (congrArg Prod.fst h1).symm
        subst hout
        exact RewritePieces.lit (ih out' ms' hrec)
    | mtch pos matched st =>
      rw [piecesRun_mtch] at h
      rcases hh : sub_handler T force path target pos matched (compsOf st) with e | ⟨repl, mo⟩
      · rw [hh] at h; cases h
      · rw [hh] at h
        rcases hrec : piecesRun T force path target ps with e | ⟨out', ms'⟩
        · rw [hrec] at h; cases h
        · rw [hrec] at h
          have h1 := Except.ok.inj h
          have hout : out = repl ++ out' := (congrArg Prod.fst h1).symm
          subst hout
          exact RewritePieces.mtch repl (ih out' ms' hrec)

/-! ## Case analysis of the translation and handler functions -/

theorem translate_none (T : URLTranslator) (sm an : Option (List Char)) :
    translate_from_components T ⟨none, sm, an⟩ = .ok T.new_spec.root_docs_url := rfl

theorem translate_tag_only (T : URLTranslator) (tg : List Char) (an : Option (List Char)) :
    translate_from_components T ⟨some tg, none, an⟩ =
      match T.legacy_op_map.find? (fun p => p.1.1 = tg) with
      | none => .error .stopIteration
      | some kv => translate_resolved T kv.2 := rfl

theorem translate_tag_sum (T : URLTranslator) (tg sm : List Char) (an : Option (List Char)) :
    translate_from_components T ⟨some tg, some sm, an⟩ =
      match lookupA T.legacy_op_map (tg, sm) with
      | none => .error .translationError
      | some op => translate_resolved T op := rfl

theorem translate_resolved_eq (T : URLTranslator) (op : CondensedOperation) :
    translate_resolved T op =
      match lookupA T.new_spec.paths ("/\x7b\x7d".data ++ op.path, op.method) with
      | none => .error .translationError
      | some nop =>
        match nop.ext_docs_url with
        | none => .error .translationError
        | some u => .ok (some u) := by
  simp only [translate_resolved, get_equivalent_operation]
  rcases h : lookupA T.new_spec.paths ("/\x7b\x7d".data ++ op.path, op.method) with _ | nop <;>
    rfl

theorem translate_resolved_err (T : URLTranslator) (op : CondensedOperation) (e : PyErr)
    (h : translate_resolved T op = .error e) : e = .translationError := by
  rw [translate_resolved_eq] at h
  rcases h2 : lookupA T.new_spec.paths ("/\x7b\x7d".data ++ op.path, op.method) with _ | nop
  · rw [h2] at h
    exact (Except.error.inj h).symm
  · rw [h2] at h
    have h4 : (match nop.ext_docs_url with
        | none => (Except.error PyErr.translationError : Except PyErr (Option (List Char)))
        | some u => Except.ok (some u)) = Except.error e := h
    rcases h3 : nop.ext_docs_url with _ | u
    · rw [h3] at h4
      exact (Except.error.inj h4).symm
    · rw [h3] at h4
      cases h4

theorem translate_err_kinds (T : URLTranslator) (comps : LegacyURLComponents) (e : PyErr)
    (h : translate_from_components T comps = .error e) :
    e = .translationError ∨ e = .stopIteration := by
  obtain ⟨otg, osm, oan⟩ := comps
  rcases otg with _ | tg
  · rw [translate_none] at h
    cases h
  · rcases osm with _ | sm
    · rw [translate_tag_only] at h
      rcases hf : T.legacy_op_map.find? (fun p => p.1.1 = tg) with _ | kv
      · rw [hf] at h
        exact Or.inr (Except.error.inj h).symm
      · rw [hf] at h
        exact Or.inl (translate_resolved_err T kv.2 e h)
    · rw [translate_tag_sum] at h
      rcases hl : lookupA T.legacy_op_map (tg, sm) with _ | op
      · rw [hl] at h
        exact Or.inl (Except.error.inj h).symm
      · rw [hl] at h
        exact Or.inl (translate_resolved_err T op e h)

theorem sub_handler_ok_some (T : URLTranslator) (force : Bool) (path : Option (List Char))
    (target : List Char) (pos : Nat) (matched : List Char) (comps : LegacyURLComponents)
    (url : List Char) (h : translate_from_components T comps = .ok (some url)) :
    sub_handler T force path target pos matched comps =
      .ok (url, some ⟨matched, some url, path, some (get_match_location target pos)⟩) := by
  unfold sub_handler
  rw [h]

theorem sub_handler_ok_none (T : URLTranslator) (force : Bool) (path : Option (List Char))
    (target : List Char) (pos : Nat) (matched : List Char) (comps : LegacyURLComponents)
    (h : translate_from_components T comps = .ok none) :
    sub_handler T force path target pos matched comps = .error .typeError := by
  unfold sub_handler
  rw [h]

theorem sub_handler_te_force (T : URLTranslator) (path : Option (List Char))
    (target : List Char) (pos : Nat) (matched : List Char) (comps : LegacyURLComponents)
    (h : translate_from_components T comps = .error .translationError) :
    sub_handler T true path target pos matched comps = .ok (matched, none) := by
  unfold sub_handler
  rw [h]
  rfl

theorem sub_handler_te_noforce (T : URLTranslator) (path : Option (List Char))
    (target : List Char) (pos : Nat) (matched : List Char) (comps : LegacyURLComponents)
    (h : translate_from_components T comps = .error .translationError) :
    sub_handler T false path target pos matched comps = .error .translationError := by
  unfold sub_handler
  rw [h]
  rfl

theorem sub_handler_stop (T : URLTranslator) (force : Bool) (path : Option (List Char))
    (target : List Char) (pos : Nat) (matched : List Char) (comps : LegacyURLComponents)
    (h : translate_from_components T comps = .error .stopIteration) :
    sub_handler T force path target pos matched comps = .error .stopIteration := by
  unfold sub_handler
  rw [h]

theorem renderForce_eq_err (T : URLTranslator) (pos : Nat) (m : List Char) (st : MState)
    (e : PyErr) (h : translate_from_components T (compsOf st) = .error e) :
    renderForce T (.mtch pos m st) = m := by
  simp only [renderForce]
  rw [h]

theorem renderForce_eq_ok_some (T : URLTranslator) (pos : Nat) (m : List Char) (st : MState)
    (url : List Char) (h : translate_from_components T (compsOf st) = .ok (some url)) :
    renderForce T (.mtch pos m st) = url := by
  simp only [renderForce]
  rw [h]

theorem metaForce_eq_err (T : URLTranslator) (path : Option (List Char)) (target : List Char)
    (pos : Nat) (m : List Char) (st : MState) (e : PyErr)
    (h : translate_from_components T (compsOf st) = .error e) :
    metaForce T path target (.mtch pos m st) = none := by
  simp only [metaForce]
  rw [h]

theorem metaForce_eq_ok_some (T : URLTranslator) (path : Option (List Char))
    (target : List Char) (pos : Nat) (m : List Char) (st : MState) (url : List Char)
    (h : translate_from_components T (compsOf st) = .ok (some url)) :
    metaForce T path target (.mtch pos m st) =
      some ⟨m, some url, path, some (get_match_location target pos)⟩ := by
  simp only [metaForce]
  rw [h]

theorem piecesRun_force (T : URLTranslator) (path : Option (List Char))
    (target : List Char) :
    ∀ ps : List SubPiece,
      (∀ pos m st, SubPiece.mtch pos m st ∈ ps →
        translate_from_components T (compsOf st) ≠ .error .stopIteration ∧
        translate_from_components T (compsOf st) ≠ .ok none) →
      piecesRun T true path target ps =
        .ok (ps.flatMap (renderForce T), ps.filterMap (metaForce T path target)) := by
  intro ps
  induction ps with
  | nil => intro _; rfl
  | cons p ps ih =>
    intro hgood
    have hgood2 : ∀ pos m st, SubPiece.mtch pos m st ∈ ps →
        translate_from_components T (compsOf st) ≠ .error .stopIteration ∧
        translate_from_components T (compsOf st) ≠ .ok none :=
      fun pos m st hm => hgood pos m st (List.mem_cons_of_mem _ hm)
    cases p with
    | lit c =>
      rw [piecesRun_lit, ih hgood2]
      rfl
    | mtch pos m st =>
      have hg := hgood pos m st (List.mem_cons_self _ _)
      rw [piecesRun_mtch]
      rcases ht : translate_from_components T (compsOf st) with e | ou
      · rcases e with _ | _ | _ | _ | _
        · rw [sub_handler_te_force T path target pos m (compsOf st) ht, ih hgood2,
            List.flatMap_cons, List.filterMap_cons,
            renderForce_eq_err T pos m st _ ht, metaForce_eq_err T path target pos m st _ ht]
          rfl
        · exact absurd ht hg.1
        · rcases translate_err_kinds T (compsOf st) _ ht with h1 | h1 <;> cases h1
        · rcases translate_err_kinds T (compsOf st) _ ht with h1 | h1 <;> cases h1
        · rcases translate_err_kinds T (compsOf st) _ ht with h1 | h1 <;> cases h1
      · rcases ou with _ | url
        · exact absurd ht hg.2
        · rw [sub_handler_ok_some T true path target pos m (compsOf st) url ht, ih hgood2,
            List.flatMap_cons, List.filterMap_cons,
            renderForce_eq_ok_some T pos m st url ht,
            metaForce_eq_ok_some T path target pos m st url ht]
          rfl

theorem sub_handler_error_iff (T : URLTranslator) (path : Option (List Char))
    (target : List Char) (pos : Nat) (m : List Char) (st : MState) (e : PyErr) :
    sub_handler T false path target pos m (compsOf st) = .error e ↔
      failKind T st = some e := by
  unfold failKind
  rcases ht : translate_from_components T (compsOf st) with e2 | ou
  · rcases e2 with _ | _ | _ | _ | _
    · rw [sub_handler_te_noforce T path target pos m (compsOf st) ht]
      constructor
      · intro h; rw [← Except.error.inj h]
      · intro h; rw [← Option.some.inj h]
    · rw [sub_handler_stop T false path target pos m (compsOf st) ht]
      constructor
      · intro h; rw [← Except.error.inj h]
      · intro h; rw [← Option.some.inj h]
    all_goals rcases translate_err_kinds T (compsOf st) _ ht with h1 | h1 <;> cases h1
  · rcases ou with _ | url
    · rw [sub_handler_ok_none T false path target pos m (compsOf st) ht]
      constructor
      · intro h; rw [← Except.error.inj h]
      · intro h; rw [← Option.some.inj h]
    · rw [sub_handler_ok_some T false path target pos m (compsOf st) url ht]
      constructor
      · intro h; cases h
      · intro h; cases h

theorem sub_handler_ok_failKind (T : URLTranslator) (path : Option (List Char))
    (target : List Char) (pos : Nat) (m : List Char) (st : MState)
    (pr : List Char × Option TranslationMeta)
    (h : sub_handler T false path target pos m (compsOf st) = .ok pr) :
    failKind T st = none := by
  rcases hfk : failKind T st with _ | e2
  · rfl
  · have h2 := (sub_handler_error_iff T path target pos m st e2).mpr hfk
    rw [h2] at h
    cases h

theorem piecesRun_error_iff (T : URLTranslator) (path : Option (List Char))
    (target : List Char) :
    ∀ (ps : List SubPiece) (e : PyErr),
      piecesRun T false path target ps = .error e ↔
        ∃ ps1 pos m st ps2, ps = ps1 ++ .mtch pos m st :: ps2 ∧
          (∀ pos' m' st', SubPiece.mtch pos' m' st' ∈ ps1 → failKind T st' = none) ∧
          failKind T st = some e := by
  intro ps
  induction ps with
  | nil =>
    intro e
    constructor
    · intro h; cases h
    · rintro ⟨ps1, pos, m, st, ps2, hsplit, _, _⟩
      cases ps1 with
      | nil => cases hsplit
      | cons p1 ps1a => cases hsplit
  | cons p ps ih =>
    intro e
    cases p with
    | lit c =>
      constructor
      · intro h
        rw [piecesRun_lit] at h
        rcases hrec : piecesRun T false path target ps with e2 | pr
        · rw [hrec] at h
          have he := Except.error.inj h
          subst he
          rcases (ih e2).mp hrec with ⟨ps1, pos, m, st, ps2, hsplit, hnone, hfail⟩
          refine ⟨.lit c :: ps1, pos, m, st, ps2, by rw [hsplit]; rfl, ?_, hfail⟩
          intro pos' m' st' hm
          rcases List.mem_cons.mp hm with heq | hm2
          · cases heq
          · exact hnone pos' m' st' hm2
        · rw [hrec] at h
          obtain ⟨out, ms⟩ := pr
          cases h
      · rintro ⟨ps1, pos, m, st, ps2, hsplit, hnone, hfail⟩
        cases ps1 with
        | nil => exact SubPiece.noConfusion (List.cons.inj hsplit).1
        | cons p1 ps1a =>
          obtain ⟨hp1, hsplit2⟩ := List.cons.inj hsplit
          subst hp1
          rw [piecesRun_lit,
            (ih e).mpr ⟨ps1a, pos, m, st, ps2, hsplit2,
              fun pos' m' st' hm => hnone pos' m' st' (List.mem_cons_of_mem _ hm), hfail⟩]
    | mtch pos0 m0 st0 =>
      constructor
      · intro h
        rw [piecesRun_mtch] at h
        rcases hh : sub_handler T false path target pos0 m0 (compsOf st0) with e2 | pr
        · rw [hh] at h
          have he := Except.error.inj h
          subst he
          refine ⟨[], pos0, m0, st0, ps, rfl, ?_,
            (sub_handler_error_iff T path target pos0 m0 st0 e2).mp hh⟩
          intro pos' m' st' hm
          cases hm
        · rw [hh] at h
          obtain ⟨repl, mo⟩ := pr
          rcases hrec : piecesRun T false path target ps with e2 | pr2
          · rw [hrec] at h
            have he := Except.error.inj h
            subst he
            rcases (ih e2).mp hrec with ⟨ps1, pos, m, st, ps2, hsplit, hnone, hfail⟩
            refine ⟨.mtch pos0 m0 st0 :: ps1, pos, m, st, ps2, by rw [hsplit]; rfl, ?_, hfail⟩
            intro pos' m' st' hm
            rcases List.mem_cons.mp hm with heq | hm2
            · injection heq with h1 h2 h3
              subst h3
              exact sub_handler_ok_failKind T path target pos0 m0 st' (repl, mo) hh
            · exact hnone pos' m' st' hm2
          · rw [hrec] at h
            obtain ⟨out, ms⟩ := pr2
            cases h
      · rintro ⟨ps1, pos, m, st, ps2, hsplit, hnone, hfail⟩
        cases ps1 with
        | nil =>
          obtain ⟨hp, hps⟩ := List.cons.inj hsplit
          injection hp with h1 h2 h3
          subst h1
          subst h2
          subst h3
          rw [piecesRun_mtch,
            (sub_handler_error_iff T path target pos0 m0 st0 e).mpr hfail]
        | cons p1 ps1a =>
          obtain ⟨hp1, hsplit2⟩ := List.cons.inj hsplit
          subst hp1
          have hfk0 : failKind T st0 = none :=
            hnone pos0 m0 st0 (List.mem_cons_self _ _)
          rw [piecesRun_mtch]
          rcases hh : sub_handler T false path target pos0 m0 (compsOf st0) with e2 | pr
          · have h2 := (sub_handler_error_iff T path target pos0 m0 st0 e2).mp hh
            rw [hfk0] at h2
            cases h2
          · obtain ⟨repl, mo⟩ := pr
            rw [(ih e).mpr ⟨ps1a, pos, m, st, ps2, hsplit2,
              fun pos' m' st' hm => hnone pos' m' st' (List.mem_cons_of_mem _ hm), hfail⟩]

theorem failKind_eq (T : URLTranslator) (st : MState) :
    failKind T st =
      match translate_from_components T (compsOf st) with
      | .ok (some _) => none
      | .ok none => some .typeError
      | .error e => some e := rfl

theorem translate_resolved_no_key (T : URLTranslator) (op : CondensedOperation)
    (h : lookupA T.new_spec.paths ("/\x7b\x7d".data ++ op.path, op.method) = none) :
    translate_resolved T op = .error .translationError := by
  rw [translate_resolved_eq, h]

theorem translate_resolved_no_docs (T : URLTranslator) (op nop : CondensedOperation)
    (h1 : lookupA T.new_spec.paths ("/\x7b\x7d".data ++ op.path, op.method) = some nop)
    (h2 : nop.ext_docs_url = none) :
    translate_resolved T op = .error .translationError := by
  rw [translate_resolved_eq, h1]
  show (match nop.ext_docs_url with
    | none => (Except.error PyErr.translationError : Except PyErr (Option (List Char)))
    | some u => Except.ok (some u)) = Except.error PyErr.translationError
  rw [h2]

theorem translate_resolved_ok (T : URLTranslator) (op nop : CondensedOperation)
    (u : List Char)
    (h1 : lookupA T.new_spec.paths ("/\x7b\x7d".data ++ op.path, op.method) = some nop)
    (h2 : nop.ext_docs_url = some u) :
    translate_resolved T op = .ok (some u) := by
  rw [translate_resolved_eq, h1]
  show (match nop.ext_docs_url with
    | none => (Except.error PyErr.translationError : Except PyErr (Option (List Char)))
    | some u => Except.ok (some u)) = Except.ok (some u)
  rw [h2]

theorem failKind_te_iff (T : URLTranslator) (st : MState) :
    failKind T st = some .translationError ↔
      CondA T st ∨ CondB T st ∨ CondC T st := by
  obtain ⟨rest, otg, osm, oan⟩ := st
  have hcomp : compsOf ⟨rest, otg, osm, oan⟩ = ⟨otg, osm, oan⟩ := rfl
  rcases otg with _ | tg
  · have hres : resolvedLegacyOp T ⟨rest, none, osm, oan⟩ = none := by
      rcases osm with _ | sm <;> rfl
    constructor
    · intro h
      rw [failKind_eq, hcomp, translate_none] at h
      rcases hr : T.new_spec.root_docs_url with _ | u
      · rw [hr] at h
        injection h with h2
        cases h2
      · rw [hr] at h
        cases h
    · rintro (⟨tg2, sm2, habs, _⟩ | ⟨op, habs, _⟩ | ⟨op, nop, habs, _⟩)
      · cases habs
      · rw [hres] at habs; cases habs
      · rw [hres] at habs; cases habs
  · rcases osm with _ | sm
    · rcases hf : T.legacy_op_map.find? (fun p => p.1.1 = tg) with _ | kv
      · have hfk : failKind T ⟨rest, some tg, none, oan⟩ = some .stopIteration := by
          rw [failKind_eq, hcomp, translate_tag_only, hf]
        have hres : resolvedLegacyOp T ⟨rest, some tg, none, oan⟩ = none := by
          show Option.map (fun kv => kv.2) (T.legacy_op_map.find? (fun p => p.1.1 = tg))
            = none
          rw [hf]
          rfl
        rw [hfk]
        constructor
        · intro h
          injection h with h2
          cases h2
        · rintro (⟨tg2, sm2, _, habs, _⟩ | ⟨op, habs, _⟩ | ⟨op, nop, habs, _⟩)
          · cases habs
          · rw [hres] at habs; cases habs
          · rw [hres] at habs; cases habs
      · have ht : translate_from_components T ⟨some tg, none, oan⟩ =
            translate_resolved T kv.2 := by
          rw [translate_tag_only, hf]
        have hres : resolvedLegacyOp T ⟨rest, some tg, none, oan⟩ = some kv.2 := by
          show Option.map (fun kv => kv.2) (T.legacy_op_map.find? (fun p => p.1.1 = tg))
            = some kv.2
          rw [hf]
          rfl
        rcases hl2 : lookupA T.new_spec.paths ("/\x7b\x7d".data ++ kv.2.path, kv.2.method)
            with _ | nop
        · have hfk : failKind T ⟨rest, some tg, none, oan⟩ = some .translationError := by
            rw [failKind_eq, hcomp, ht, translate_resolved_no_key T kv.2 hl2]
          rw [hfk]
          constructor
          · intro _
            exact Or.inr (Or.inl ⟨kv.2, hres, hl2⟩)
          · intro _
            rfl
        · rcases he : nop.ext_docs_url with _ | u
          · have hfk : failKind T ⟨rest, some tg, none, oan⟩ = some .translationError := by
              rw [failKind_eq, hcomp, ht, translate_resolved_no_docs T kv.2 nop hl2 he]
            rw [hfk]
            constructor
            · intro _
              exact Or.inr (Or.inr ⟨kv.2, nop, hres, hl2, he⟩)
            · intro _
              rfl
          · have hfk : failKind T ⟨rest, some tg, none, oan⟩ = none := by
              rw [failKind_eq, hcomp, ht, translate_resolved_ok T kv.2 nop u hl2 he]
            rw [hfk]
            constructor
            · intro h; cases h
            · rintro (⟨tg2, sm2, _, habs, _⟩ | ⟨op, habs, hlk⟩ |
                ⟨op, nop2, habs, hlk, hedu⟩)
              · cases habs
              · rw [hres] at habs
                have hop := Option.some.inj habs
                subst hop
                rw [hl2] at hlk
                cases hlk
              · rw [hres] at habs
                have hop := Option.some.inj habs
                subst hop
                rw [hl2] at hlk
                have hnop := Option.some.inj hlk
                subst hnop
                rw [he] at hedu
                cases hedu
    · have hres : resolvedLegacyOp T ⟨rest, some tg, some sm, oan⟩ =
          lookupA T.legacy_op_map (tg, sm) := rfl
      rcases hl : lookupA T.legacy_op_map (tg, sm) with _ | op
      · have hfk : failKind T ⟨rest, some tg, some sm, oan⟩ = some .translationError := by
          rw [failKind_eq, hcomp, translate_tag_sum, hl]
        rw [hfk]
        constructor
        · intro _
          exact Or.inl ⟨tg, sm, rfl, rfl, hl⟩
        · intro _
          rfl
      · have ht : translate_from_components T ⟨some tg, some sm, oan⟩ =
            translate_resolved T op := by
          rw [translate_tag_sum, hl]
        have hres2 : resolvedLegacyOp T ⟨rest, some tg, some sm, oan⟩ = some op := by
          rw [hres, hl]
      
        rcases hl2 : lookupA T.new_spec.paths ("/\x7b\x7d".data ++ op.path, op.method)
            with _ | nop
        · have hfk : failKind T ⟨rest, some tg, some sm, oan⟩ = some .translationError := by
            rw [failKind_eq, hcomp, ht, translate_resolved_no_key T op hl2]
          rw [hfk]
          constructor
          · intro _
            exact Or.inr (Or.inl ⟨op, hres2, hl2⟩)
          · intro _
            rfl
        · rcases he : nop.ext_docs_url with _ | u
          · have hfk : failKind T ⟨rest, some tg, some sm, oan⟩ = some .translationError := by
              rw [failKind_eq, hcomp, ht, translate_resolved_no_docs T op nop hl2 he]
            rw [hfk]
            constructor
            · intro _
              exact Or.inr (Or.inr ⟨op, nop, hres2, hl2, he⟩)
            · intro _
              rfl
          · have hfk : failKind T ⟨rest, some tg, some sm, oan⟩ = none := by
              rw [failKind_eq, hcomp, ht, translate_resolved_ok T op nop u hl2 he]
            rw [hfk]
            constructor
            · intro h; cases h
            · rintro (⟨tg2, sm2, htg2, hsm2, hlk⟩ | ⟨op2, habs, hlk⟩ |
                ⟨op2, nop2, habs, hlk, hedu⟩)
              · have htg3 := Option.some.inj htg2
                have hsm3 := Option.some.inj hsm2
                subst htg3
                subst hsm3
                rw [hl] at hlk
                cases hlk
              · rw [hres2] at habs
                have hop := Option.some.inj habs
                subst hop
                rw [hl2] at hlk
                cases hlk
              · rw [hres2] at habs
                have hop := Option.some.inj habs
                subst hop
                rw [hl2] at hlk
                have hnop := Option.some.inj hlk
                subst hnop
                rw [he] at hedu
                cases hedu

/-! ## Claim theorems -/

/-- C1: for every matched legacy URL whose tag and summary components are both
present and whose (tag, summary) pair — a key in the flattened key space of the
legacy operation map — is bound to a legacy operation, translation returns
exactly the external-docs URL of the new-spec operation stored under the key
`'/{}'` ++ the legacy operation's ID-stripped path with the legacy operation's
method, and the substitution handler replaces the matched text with that URL. -/
theorem claim_C1 (T : URLTranslator) (comps : LegacyURLComponents)
    (tg sm : List Char) (op nop : CondensedOperation) (u : List Char)
    (h1 : comps.tag = some tg) (h2 : comps.summary = some sm)
    (h3 : lookupA T.legacy_op_map (tg, sm) = some op)
    (h4 : lookupA T.new_spec.paths ("/\x7b\x7d".data ++ op.path, op.method) = some nop)
    (h5 : nop.ext_docs_url = some u) :
    translate_from_components T comps = .ok (some u) ∧
    ∀ (force : Bool) (path : Option (List Char)) (target matched : List Char) (pos : Nat),
      sub_handler T force path target pos matched comps =
        .ok (u, some ⟨matched, some u, path, some (get_match_location target pos)⟩) := by
  have ht : translate_from_components T comps = .ok (some u) := by
    obtain ⟨otg, osm, oan⟩ := comps
    have h1b : otg = some tg := h1
    have h2b : osm = some sm := h2
    subst h1b
    subst h2b
    rw [translate_tag_sum, h3]
    exact translate_resolved_ok T op nop u h4 h5
  refine ⟨ht, ?_⟩
  intro force path target matched pos
  exact sub_handler_ok_some T force path target pos matched comps u ht

theorem claim_C1_witness :
    translate_from_components Tex
        ⟨some "linode-instances".data, some "list-linodes".data, none⟩ =
      .ok (some "https://techdocs/li".data) ∧
    sub_handler Tex false none "x".data 0 "m".data
        ⟨some "linode-instances".data, some "list-linodes".data, none⟩ =
      .ok ("https://techdocs/li".data,
        some ⟨"m".data, some "https://techdocs/li".data, none,
          some (get_match_location "x".data 0)⟩) := by
  have h := claim_C1 Tex ⟨some "linode-instances".data, some "list-linodes".data, none⟩
    "linode-instances".data "list-linodes".data opW nopW "https://techdocs/li".data
    rfl rfl (by decide) (by decide) (by decide)
  exact ⟨h.1, h.2 false none "x".data "m".data 0⟩

/-- C8: a matched legacy URL with no tag component translates to the new spec's
root external-docs URL — independently of the legacy operation map — and, when
that root URL is defined, the handler substitutes it. -/
theorem claim_C8 (T : URLTranslator) (comps : LegacyURLComponents) (u : List Char)
    (h1 : comps.tag = none) (h2 : T.new_spec.root_docs_url = some u) :
    (∀ m : OpMap,
      translate_from_components ⟨T.legacy_spec, T.new_spec, m⟩ comps = .ok (some u)) ∧
    ∀ (force : Bool) (path : Option (List Char)) (target matched : List Char) (pos : Nat),
      sub_handler T force path target pos matched comps =
        .ok (u, some ⟨matched, some u, path, some (get_match_location target pos)⟩) := by
  have ht : ∀ m : OpMap,
      translate_from_components ⟨T.legacy_spec, T.new_spec, m⟩ comps = .ok (some u) := by
    intro m
    obtain ⟨otg, osm, oan⟩ := comps
    have h1b : otg = none := h1
    subst h1b
    rw [translate_none]
    show Except.ok T.new_spec.root_docs_url = Except.ok (some u)
    rw [h2]
  refine ⟨ht, ?_⟩
  intro force path target matched pos
  exact sub_handler_ok_some T force path target pos matched comps u (ht T.legacy_op_map)

theorem claim_C8_witness :
    translate_from_components ⟨Tex.legacy_spec, Tex.new_spec, []⟩ ⟨none, none, none⟩ =
      .ok (some "https://techdocs/root".data) ∧
    sub_handler Tex true none "y".data 2 "mm".data ⟨none, none, none⟩ =
      .ok ("https://techdocs/root".data,
        some ⟨"mm".data, some "https://techdocs/root".data, none,
          some (get_match_location "y".data 2)⟩) := by
  have h := claim_C8 Tex ⟨none, none, none⟩ "https://techdocs/root".data rfl (by decide)
  exact ⟨h.1 [], h.2 true none "y".data "mm".data 2⟩

/-- C3: whenever replace_urls returns a text, that text arises from the scan
decomposition of the input: the pieces' original texts concatenate back to the
input (so the matched spans are non-overlapping, in left-to-right order), and
the output keeps every character outside the matched spans verbatim and in
order, substituting some replacement for each matched span. -/
theorem claim_C3 (T : URLTranslator) (force : Bool) (path : Option (List Char))
    (target out : List Char) (ms : List TranslationMeta)
    (h : replace_urls T target force path = .ok (out, ms)) :
    (scanPieces target).flatMap pieceOrig = target ∧
    RewritePieces (scanPieces target) out := by
  refine ⟨scanPieces_orig target, ?_⟩
  rw [replace_urls_eq_piecesRun] at h
  exact piecesRun_rewrites T force path target (scanPieces target) out ms h

theorem claim_C3_witness :
    (scanPieces "a linode.com/docs/api b".data).flatMap pieceOrig =
      "a linode.com/docs/api b".data ∧
    RewritePieces (scanPieces "a linode.com/docs/api b".data)
      "a https://techdocs/root b".data :=
  claim_C3 Tex false none "a linode.com/docs/api b".data
    "a https://techdocs/root b".data
    [⟨"linode.com/docs/api".data, some "https://techdocs/root".data, none, some (1, 3)⟩]
    (by decide)

/-- C2 counterexample: with `force=True`, a matched URL whose tag has no legacy
operation (summary absent) makes `next` raise StopIteration, which is not a
TranslationError and escapes the call instead of being skipped with a warning:
the claim as stated is false. -/
theorem claim_C2_counterexample :
    SubPiece.mtch 0 "linode.com/docs/api/foo".data ⟨[], some "foo".data, none, none⟩
      ∈ scanPieces "linode.com/docs/api/foo".data ∧
    replace_urls TexEmpty "linode.com/docs/api/foo".data true none =
      .error .stopIteration := by
  constructor <;> decide

/-- C2 amended: with `force=True`, every match whose translation fails with a
TranslationError is skipped: the matched text is kept unchanged, no entry is
added to the replacements list, processing continues, and the call returns
normally — provided no match fails through the tag-only path with no matching
tag (StopIteration) or through a root reference with no root docs URL
(TypeError), which still escape. -/
theorem pieceSafe_stop (T : URLTranslator) (pos : Nat) (m : List Char) (st : MState)
    (h : translate_from_components T (compsOf st) = .error .stopIteration) :
    pieceSafe T (.mtch pos m st) = false := by
  simp only [pieceSafe]
  rw [h]

theorem pieceSafe_ok_none (T : URLTranslator) (pos : Nat) (m : List Char) (st : MState)
    (h : translate_from_components T (compsOf st) = .ok none) :
    pieceSafe T (.mtch pos m st) = false := by
  simp only [pieceSafe]
  rw [h]

theorem claim_C2_amended (T : URLTranslator) (path : Option (List Char))
    (target : List Char)
    (hgood : ∀ p ∈ scanPieces target, pieceSafe T p = true) :
    replace_urls T target true path =
      .ok ((scanPieces target).flatMap (renderForce T),
        (scanPieces target).filterMap (metaForce T path target)) := by
  rw [replace_urls_eq_piecesRun]
  apply piecesRun_force
  intro pos m st hm
  have hps := hgood _ hm
  constructor
  · intro hc
    rw [pieceSafe_stop T pos m st hc] at hps
    cases hps
  · intro hc
    rw [pieceSafe_ok_none T pos m st hc] at hps
    cases hps

theorem claim_C2_witness :
    replace_urls Tex "linode.com/docs/api/unknown#pair x".data true none =
      .ok ((scanPieces "linode.com/docs/api/unknown#pair x".data).flatMap
            (renderForce Tex),
          (scanPieces "linode.com/docs/api/unknown#pair x".data).filterMap
            (metaForce Tex none "linode.com/docs/api/unknown#pair x".data)) :=
  claim_C2_amended Tex none "linode.com/docs/api/unknown#pair x".data (by decide)

/-- C4 counterexample: with `force=False` and a first match failing through the
tag-only StopIteration path, replace_urls raises StopIteration even though a
later matched URL satisfies condition (a): the if-and-only-if as stated is
false. -/
theorem claim_C4_counterexample :
    replace_urls TexEmpty "linode.com/docs/api/foo linode.com/docs/api/t#s".data
        false none = .error .stopIteration ∧
    ¬ replace_urls TexEmpty "linode.com/docs/api/foo linode.com/docs/api/t#s".data
        false none = .error .translationError ∧
    SubPiece.mtch 24 "linode.com/docs/api/t#s".data
        ⟨[], some "t".data, some "s".data, none⟩
      ∈ scanPieces "linode.com/docs/api/foo linode.com/docs/api/t#s".data ∧
    CondA TexEmpty ⟨[], some "t".data, some "s".data, none⟩ := by
  refine ⟨by decide, by decide, by decide, "t".data, "s".data, rfl, rfl, by decide⟩

/-- C4 amended: with `force=False`, replace_urls raises a TranslationError if
and only if some matched URL satisfies condition (a), (b) or (c) and every
strictly earlier match translates successfully; a first failure of another kind
(tag-only with no matching tag, or tag-less with no root docs URL) raises
StopIteration or TypeError instead. -/
theorem claim_C4_amended (T : URLTranslator) (path : Option (List Char))
    (target : List Char) :
    replace_urls T target false path = .error .translationError ↔
      ∃ ps1 pos m st ps2, scanPieces target = ps1 ++ .mtch pos m st :: ps2 ∧
        (∀ pos' m' st', SubPiece.mtch pos' m' st' ∈ ps1 → failKind T st' = none) ∧
        (CondA T st ∨ CondB T st ∨ CondC T st) := by
  rw [replace_urls_eq_piecesRun, piecesRun_error_iff]
  constructor
  · rintro ⟨ps1, pos, m, st, ps2, hsplit, hnone, hfail⟩
    exact ⟨ps1, pos, m, st, ps2, hsplit, hnone, (failKind_te_iff T st).mp hfail⟩
  · rintro ⟨ps1, pos, m, st, ps2, hsplit, hnone, hcond⟩
    exact ⟨ps1, pos, m, st, ps2, hsplit, hnone, (failKind_te_iff T st).mpr hcond⟩

theorem claim_C4_witness :
    ∃ ps1 pos m st ps2,
      scanPieces "linode.com/docs/api/unknown#pair x".data =
        ps1 ++ SubPiece.mtch pos m st :: ps2 ∧
      (∀ pos' m' st', SubPiece.mtch pos' m' st' ∈ ps1 → failKind Tex st' = none) ∧
      (CondA Tex st ∨ CondB Tex st ∨ CondC Tex st) :=
  (claim_C4_amended Tex none "linode.com/docs/api/unknown#pair x".data).mp (by decide)

/-- C5 counterexample: the unescaped dots in `LEGACY_URL_REGEX` are wildcards,
so `linodeXcom/docs/api` matches although it does not consist of the literal
components the claim describes: the exact-characterization as stated is
false. -/
theorem claim_C5_counterexample :
    (pymatch "linodeXcom/docs/api".data).isSome = true ∧
    specDescribedURL "linodeXcom/docs/api".data = false := by
  constructor <;> decide

/-- C5 amended: the regex's dots match any non-newline character, and the `/`
and `#` separators, the tag, the summary and the `__`-anchor are each
independently optional; an attempt at the head of the input succeeds exactly
when some such decomposition ends before a double quote, whitespace, `)` or the
end of input, and on success the named groups witness one such decomposition. -/
theorem claim_C5_amended (l : List Char) :
    (∀ st, pymatch l = some st → Decomp l st ∧ lookOk st.rest = true) ∧
    ((∃ st, Decomp l st ∧ lookOk st.rest = true) → (pymatch l).isSome = true) := by
  constructor
  · intro st h
    have hm := pymatch_some_mem l st h
    exact ⟨(mem_matchCands l st).mp hm.1, hm.2⟩
  · rintro ⟨st, hd, hl⟩
    exact pymatch_isSome_of_exists l ⟨st, (mem_matchCands l st).mpr hd, hl⟩

theorem claim_C5_witness :
    Decomp "linode.com/docs/api/tag#__abc rest".data
        ⟨' ' :: "rest".data, some "tag".data, none, some "abc".data⟩ ∧
    lookOk (' ' :: "rest".data) = true :=
  (claim_C5_amended "linode.com/docs/api/tag#__abc rest".data).1
    ⟨' ' :: "rest".data, some "tag".data, none, some "abc".data⟩ (by decide)

/-- C6: `from_spec` condenses a description into a path index whose keys are
exactly the (ID-stripped path, method) pairs of operations sitting in a
get/post/put/delete slot, and `_build_op_map` into an operation map whose keys
are exactly the (flattened tag, flattened summary) pairs of the indexed
operations having both a first tag and a summary. -/
theorem claim_C6 (spec : OpenAPISpec) :
    (∀ p m : List Char,
      (lookupA (CondensedOpenAPI.from_spec spec).paths (p, m)).isSome ↔
        ∃ urlPath item, (urlPath, item) ∈ spec.paths ∧
          ∃ slot ∈ valid_paths, (slot.2 item).isSome ∧
            m = slot.1 ∧ p = strip_url_ids urlPath) ∧
    (∀ t s : List Char,
      (lookupA (build_op_map (CondensedOpenAPI.from_spec spec)) (t, s)).isSome ↔
        ∃ kv ∈ (CondensedOpenAPI.from_spec spec).paths,
          ∃ t0 s0, kv.2.tag = some t0 ∧ kv.2.summary = some s0 ∧
            (t, s) = (flatten_path_for_url t0, flatten_path_for_url s0)) := by
  constructor
  · intro p m
    rw [from_spec_paths_isSome]
    constructor
    · rintro ⟨⟨urlPath, item⟩, hpr, v, hv⟩
      rcases (mem_condenseItem _ _ _).mp hv with ⟨slot, hslot, opd, hopt, _, hkey⟩
      refine ⟨urlPath, item, hpr, slot, hslot, ?_, ?_, ?_⟩
      · rw [hopt]; rfl
      · exact congrArg Prod.snd hkey
      · exact congrArg Prod.fst hkey
    · rintro ⟨urlPath, item, hpr, slot, hslot, hopt, rfl, rfl⟩
      rcases Option.isSome_iff_exists.mp hopt with ⟨opd, hopd⟩
      exact ⟨(urlPath, item), hpr,
        CondensedOperation.from_operation urlPath slot.1 opd,
        (mem_condenseItem _ _ _).mpr ⟨slot, hslot, opd, hopd, rfl, rfl⟩⟩
  · intro t s
    exact build_op_map_isSome (CondensedOpenAPI.from_spec spec) (t, s)

theorem claim_C6_witness :
    (lookupA (CondensedOpenAPI.from_spec legacyEx).paths
      ("/linode/instances".data, "get".data)).isSome = true ∧
    (lookupA (build_op_map (CondensedOpenAPI.from_spec legacyEx))
      ("linode-instances".data, "list-linodes".data)).isSome = true := by
  constructor
  · exact ((claim_C6 legacyEx).1 "/linode/instances".data "get".data).mpr
      ⟨"/linode/instances".data, ⟨some opdEx, none, none, none⟩, by decide,
        ("get".data, PathItem.get), List.mem_cons_self _ _, by decide, rfl, by decide⟩
  · exact ((claim_C6 legacyEx).2 "linode-instances".data "list-linodes".data).mpr
      ⟨(("/linode/instances".data, "get".data), opW), by decide,
        "Linode Instances".data, "List Linodes".data, rfl, rfl, by decide⟩

/-- C7: a pickled translator loads back with the same condensed legacy spec,
condensed new spec and legacy operation map, so `replace_urls` on the loaded
translator agrees with the original on every input. -/
theorem claim_C7 (fs : CLIFS) (p : List Char) (T T2 : URLTranslator)
    (h : URLTranslator.load_pickled (T.pickleTo fs p) p = some T2) :
    T2.legacy_spec = T.legacy_spec ∧ T2.new_spec = T.new_spec ∧
    T2.legacy_op_map = T.legacy_op_map ∧
    ∀ (target : List Char) (force : Bool) (path : Option (List Char)),
      replace_urls T2 target force path = replace_urls T target force path := by
  have hT : T2 = T := by
    unfold URLTranslator.load_pickled URLTranslator.pickleTo at h
    rw [lookupA_insertA_self] at h
    exact (Option.some.inj h).symm
  subst hT
  exact ⟨rfl, rfl, rfl, fun _ _ _ => rfl⟩

theorem claim_C7_witness :
    URLTranslator.load_pickled (Tex.pickleTo fsEx PICKLE_PATH) PICKLE_PATH =
      some Tex ∧
    replace_urls Tex "a linode.com/docs/api b".data false none =
      replace_urls Tex "a linode.com/docs/api b".data false none := by
  have h : URLTranslator.load_pickled (Tex.pickleTo fsEx PICKLE_PATH) PICKLE_PATH =
      some Tex := by decide
  exact ⟨h, (claim_C7 fsEx PICKLE_PATH Tex Tex h).2.2.2 "a linode.com/docs/api b".data
    false none⟩

theorem keepScript_imp_keepPkg (c : Char) (h : keepScript c = true) :
    keepPkg c = true := by
  unfold keepScript at h
  unfold keepPkg
  rcases hx : ('a' ≤ c && c ≤ 'z') with _ | _
  · rw [hx] at h
    simp only [Bool.false_or] at h
    simp [h]
  · simp [hx]

theorem filter_script_pkg_iff (l : List Char) :
    l.filter keepScript = l.filter keepPkg ↔
      ∀ c ∈ l, keepPkg c = true → keepScript c = true := by
  induction l with
  | nil => simp
  | cons c l ih =>
    rcases hsc : keepScript c with _ | _
    · rcases hpk : keepPkg c with _ | _
      · rw [List.filter_cons_of_neg (by rw [hsc]; exact Bool.false_ne_true),
          List.filter_cons_of_neg (by rw [hpk]; exact Bool.false_ne_true), ih]
        constructor
        · intro h c2 hc2 hpk2
          rcases List.mem_cons.mp hc2 with rfl | hc3
          · rw [hpk] at hpk2; cases hpk2
          · exact h c2 hc3 hpk2
        · intro h c2 hc2 hpk2
          exact h c2 (List.mem_cons_of_mem _ hc2) hpk2
      · rw [List.filter_cons_of_neg (by rw [hsc]; exact Bool.false_ne_true),
          List.filter_cons_of_pos (by rw [hpk])]
        constructor
        · intro h
          exfalso
          have hmem : c ∈ List.filter keepScript l := by
            rw [h]
            exact List.mem_cons_self _ _
          rw [List.mem_filter] at hmem
          rw [hsc] at hmem
          exact Bool.noConfusion hmem.2
        · intro h
          exfalso
          have := h c (List.mem_cons_self _ _) hpk
          rw [hsc] at this
          exact Bool.noConfusion this
    · have hpk : keepPkg c = true := keepScript_imp_keepPkg c hsc
      rw [List.filter_cons_of_pos (by rw [hsc]),
        List.filter_cons_of_pos (by rw [hpk])]
      constructor
      · intro h c2 hc2 hpk2
        rcases List.mem_cons.mp hc2 with rfl | hc3
        · exact hsc
        · exact ih.mp (List.cons.inj h).2 c2 hc3 hpk2
      · intro h
        rw [ih.mpr (fun c2 hc2 hpk2 => h c2 (List.mem_cons_of_mem _ hc2) hpk2)]

/-- C9 counterexample: the script's flattener drops digits that the package's
flattener keeps, e.g. on "IPv6", so the two implementations do not agree on
every tag or summary string. -/
theorem claim_C9_counterexample :
    flatten_path_for_url_script "IPv6".data ≠ flatten_path_for_url "IPv6".data := by
  decide

/-- C9 amended: the script's and the package's flatteners agree on a string
exactly when every lowercased character kept by the package's class
`[a-zA-z0-9- ]` also lies in the script's class `[a-z ]`; digits, hyphens and
the punctuation between `Z` and `a` are kept only by the package, so the two
operation maps built from the same description need not coincide. -/
theorem claim_C9_amended (s : List Char) :
    flatten_path_for_url_script s = flatten_path_for_url s ↔
      ∀ c ∈ s.map Char.toLower, keepPkg c = true → keepScript c = true := by
  unfold flatten_path_for_url_script flatten_path_for_url
  rw [← filter_script_pkg_iff]
  constructor
  · intro h
    have hsub : ((s.map Char.toLower).filter keepScript).Sublist
        ((s.map Char.toLower).filter keepPkg) :=
      List.monotone_filter_right _ (fun c hc => keepScript_imp_keepPkg c hc)
    have hlen : ((s.map Char.toLower).filter keepScript).length =
        ((s.map Char.toLower).filter keepPkg).length := by
      have := congrArg List.length h
      simpa using this
    exact hsub.eq_of_length hlen
  · intro h
    rw [h]

/-- C10 counterexample: `ReplaceCommand.execute` loads the pickled translator —
a file read — before checking the flag/path combination, so the ValueError is
not raised "before reading or writing any file": the trace already contains the
pickle read. -/
theorem claim_C10_counterexample :
    replace_execute fsEx ["a.md".data, "b.md".data] false false =
      ([FileEvent.read PICKLE_PATH], .error .valueError) ∧
    ([FileEvent.read PICKLE_PATH] : List FileEvent) ≠ [] := by
  constructor <;> decide

/-- C10 amended: whenever the pickled translator loads and write_changes is
false with more than one path, execute raises ValueError with the pickle read
as the only file access, so no target file is read or written and every target
file is left unchanged. -/
theorem claim_C10_amended (fs : CLIFS) (paths : List (List Char)) (force : Bool)
    (T : URLTranslator)
    (hp : URLTranslator.load_pickled fs PICKLE_PATH = some T)
    (hn : paths.length > 1) :
    replace_execute fs paths false force =
      ([FileEvent.read PICKLE_PATH], .error .valueError) := by
  unfold replace_execute
  rw [hp]
  show (if (false = false ∧ paths.length > 1) then
      ([FileEvent.read PICKLE_PATH], (Except.error PyErr.valueError : Except PyErr CLIFS))
    else replaceLoop T force false fs [FileEvent.read PICKLE_PATH] paths) =
    ([FileEvent.read PICKLE_PATH], Except.error PyErr.valueError)
  rw [if_pos ⟨rfl, hn⟩]

theorem claim_C10_witness :
    replace_execute fsEx ["a.md".data, "b.md".data] false true =
      ([FileEvent.read PICKLE_PATH], .error .valueError) :=
  claim_C10_amended fsEx ["a.md".data, "b.md".data] true Tex (by decide) (by decide)

theorem claim_C9_witness :
    flatten_path_for_url_script "Create Linode".data =
      flatten_path_for_url "Create Linode".data :=
  (claim_C9_amended "Create Linode".data).mpr (by decide)
